import Mathlib

/-!
Verification of the Hermes core specification against the repository.

The repository's web dashboard, IDE extension and API client are the code
under `src/`; the core components (DiffEngine, VersionStore,
BenchmarkScoreAggregator, QualityGateEvaluator) are exercised there only
through mock data and HTTP calls, so those components are modelled from the
specification text and the claims about them are settled against the model.
The prompt-file metadata handling (`parsePromptMetadata`,
`extractPromptContent`, `formatPromptFile`) and the `HermesClient` error
handling are translated directly from the TypeScript source.

Numbers that the source handles as JavaScript numbers are modelled as `ℚ`;
JavaScript strings are modelled as `List Char`.
-/

/-- Modelled from the spec: BenchmarkScoreAggregator result record
(`overallScore`, optional `delta`, `gatePassed`). -/
structure AggResult where
  overallScore : ℚ
  delta : Option ℚ
  gatePassed : Bool
deriving DecidableEq

/-- Modelled from the spec: the aggregator's `NoScoresError`. -/
inductive AggError where
  | noScores
deriving DecidableEq

/-- Rounding to one decimal place, used for `overallScore`. -/
def round1 (x : ℚ) : ℚ := ((round (10 * x) : ℤ) : ℚ) / 10

/-- Modelled from the spec: `BenchmarkScoreAggregator.aggregate`
(§4.4; the aggregator itself is absent from `src/`, which only consumes its
results). `overallScore` is the arithmetic mean of the dimension scores
rounded to one decimal place; `delta` is present exactly when a baseline is
supplied; `gatePassed` compares the overall score with the gate threshold;
empty input fails with `NoScoresError`. -/
def aggregate (dimensionScores : List (String × ℚ)) (baselineScore : Option ℚ)
    (gateThreshold : ℚ) : Except AggError AggResult :=
  if dimensionScores.isEmpty then
    .error .noScores
  else
    let vals := dimensionScores.map (fun d => d.2)
    let mean := vals.sum / (vals.length : ℚ)
    let overall := round1 mean
    .ok { overallScore := overall
          delta := baselineScore.map (fun b => overall - b)
          gatePassed := decide (gateThreshold ≤ overall) }

/-- HTTP-level failure as observed by the client's catch blocks:
`error.response?.status` is `none` when the request produced no response. -/
structure HttpError where
  status : Option Nat
deriving DecidableEq

/-- The `Prompt` record returned by the Hermes API client
(fields the claims need). -/
structure PromptRec where
  id : String
  slug : String
  name : String
  content : String
  version : String
deriving DecidableEq

/-- The `VersionInfo` record returned by `getVersionHistory`. -/
structure VersionInfoRec where
  id : String
  version : String
  contentHash : String
deriving DecidableEq

/-- `HermesClient.getPrompt`, given the outcome of its HTTP GET: the catch
block maps a 404 response to `null` and re-throws every other error. -/
def getPromptResult (resp : Except HttpError PromptRec) :
    Except HttpError (Option PromptRec) :=
  match resp with
  | .ok p => .ok (some p)
  | .error e => if e.status = some 404 then .ok none else .error e

/-- `HermesClient.getPromptBySlug`, given the outcome of its HTTP GET: the
catch block maps a 404 response to `null` and re-throws every other error. -/
def getPromptBySlugResult (resp : Except HttpError PromptRec) :
    Except HttpError (Option PromptRec) :=
  match resp with
  | .ok p => .ok (some p)
  | .error e => if e.status = some 404 then .ok none else .error e

/-- `HermesClient.getVersionHistory`, given the outcome of its HTTP GET: no
catch block, every error propagates unchanged. -/
def getVersionHistoryResult (resp : Except HttpError (List VersionInfoRec)) :
    Except HttpError (List VersionInfoRec) :=
  resp

/-- `HermesClient.rollbackVersion`, given the outcome of its HTTP POST: no
catch block, every error propagates unchanged. -/
def rollbackVersionResult (resp : Except HttpError PromptRec) :
    Except HttpError PromptRec :=
  resp

/-- Gate evaluation status (§3 GateEvaluation). -/
inductive GateStatus where
  | passed
  | failed
  | warning
deriving DecidableEq

/-- Modelled from the spec: QualityGateRule (§3). `kind` is an open string
(the rule set is externally configured); the kind-specific parameters are
carried as plain fields, the ones a kind does not use being ignored. -/
structure GateRule where
  id : String
  name : String
  kind : String
  threshold : ℚ
  dimension : String
  tolerance : ℚ
  blocking : Bool
deriving DecidableEq

/-- Modelled from the spec: the slice of BenchmarkResult the gate evaluator
reads (`overallScore`, `dimensionScores`). -/
structure BenchResult where
  overallScore : ℚ
  dimensionScores : List (String × ℚ)
deriving DecidableEq

/-- Modelled from the spec: GateEvaluation (§3). -/
structure GateEvaluation where
  ruleId : String
  ruleName : String
  status : GateStatus
  message : String
  blocking : Bool
deriving DecidableEq

/-- Modelled from the spec: GateVerdict (§3). -/
structure GateVerdict where
  canDeploy : Bool
  evaluations : List GateEvaluation
  blockers : List String
  warnings : List String
  summary : String
deriving DecidableEq

/-- Modelled from the spec: `UnsupportedRuleError`, carrying the offending
rule kind. -/
structure UnsupportedRule where
  kind : String
deriving DecidableEq

/-- The rule kinds the evaluator supports (§4.5). -/
def supportedKind (k : String) : Bool :=
  k == "minimum_score" || k == "dimension_floor" || k == "no_regression"

/-- Dimension lookup in a benchmark result's score mapping. -/
def lookupDim (scores : List (String × ℚ)) (d : String) : Option ℚ :=
  (scores.find? (fun p => p.1 == d)).map (fun p => p.2)

/-- Modelled from the spec: whether a rule's condition holds (§4.5).
`minimum_score`: overall score meets the threshold. `dimension_floor`: the
named dimension meets the threshold, a missing dimension failing. 
`no_regression`: the overall score is within tolerance of the most recent
prior result (`history` holds the prior results newest first, excluding the
latest); with no prior entry the rule automatically passes. An unknown kind
is `UnsupportedRuleError`. -/
def ruleCondition (latest : BenchResult) (history : List BenchResult)
    (r : GateRule) : Except UnsupportedRule Bool :=
  if r.kind == "minimum_score" then
    .ok (decide (r.threshold ≤ latest.overallScore))
  else if r.kind == "dimension_floor" then
    match lookupDim latest.dimensionScores r.dimension with
    | some s => .ok (decide (r.threshold ≤ s))
    | none => .ok false
  else if r.kind == "no_regression" then
    match history.head? with
    | some prior =>
        .ok (decide (prior.overallScore - r.tolerance ≤ latest.overallScore))
    | none => .ok true
  else
    .error { kind := r.kind }

/-- Status mapping (§4.5): a holding condition is `passed`; a failing
condition is `failed` when blocking and `warning` otherwise. -/
def statusOf (cond : Bool) (blocking : Bool) : GateStatus :=
  if cond then .passed else if blocking then .failed else .warning

/-- Human-readable justification attached to an evaluation. -/
def ruleMessage (r : GateRule) (cond : Bool) : String :=
  (if cond then "passed: " else "failed: ") ++ r.name

/-- One GateEvaluation for one rule (§4.5). -/
def evalRule (latest : BenchResult) (history : List BenchResult)
    (r : GateRule) : Except UnsupportedRule GateEvaluation :=
  (ruleCondition latest history r).map fun c =>
    { ruleId := r.id
      ruleName := r.name
      status := statusOf c r.blocking
      message := ruleMessage r c
      blocking := r.blocking }

/-- Rule-by-rule evaluation in configured order, failing the whole run on
the first unsupported rule (§4.5). -/
def evalRules (latest : BenchResult) (history : List BenchResult) :
    List GateRule → Except UnsupportedRule (List GateEvaluation)
  | [] => .ok []
  | r :: rs =>
    match evalRule latest history r with
    | .error e => .error e
    | .ok ev =>
      match evalRules latest history rs with
      | .error e => .error e
      | .ok evs => .ok (ev :: evs)

/-- Modelled from the spec: `QualityGateEvaluator.evaluate` (§4.5; the
evaluator is absent from `src/`, which only displays its verdicts).
All-or-nothing: either every configured rule yields a GateEvaluation or the
whole evaluation fails with `UnsupportedRuleError`. -/
def evaluate (rules : List GateRule) (latest : BenchResult)
    (history : List BenchResult) : Except UnsupportedRule GateVerdict :=
  match evalRules latest history rules with
  | .error e => .error e
  | .ok evs =>
    .ok { canDeploy := evs.all (fun ev => decide (ev.status ≠ .failed))
          evaluations := evs
          blockers :=
            (evs.filter (fun ev => decide (ev.status = .failed))).map
              (fun ev => ev.message)
          warnings :=
            (evs.filter (fun ev => decide (ev.status = .warning))).map
              (fun ev => ev.message)
          summary := "quality gate evaluated" }

/-- Kind of a diff line or chunk: context, add or remove (§3 DiffChunk). -/
inductive EditKind where
  | context
  | add
  | remove
deriving DecidableEq

/-- One aligned line of the diff between two line sequences. -/
inductive Edit where
  | ctx (line : String)
  | ins (line : String)
  | del (line : String)
deriving DecidableEq

/-- The kind of an aligned diff line. -/
def Edit.kind : Edit → EditKind
  | .ctx _ => .context
  | .ins _ => .add
  | .del _ => .remove

/-- The raw text of an aligned diff line. -/
def Edit.line : Edit → String
  | .ctx s => s
  | .ins s => s
  | .del s => s

/-- Rebuild an aligned diff line from its kind and text. -/
def editOf (k : EditKind) (s : String) : Edit :=
  match k with
  | .context => .ctx s
  | .add => .ins s
  | .remove => .del s

/-- Length of the longest common subsequence of two line sequences, used by
the diff tie-break. -/
def lcsLen : List String → List String → Nat
  | [], _ => 0
  | _ :: _, [] => 0
  | a :: as, b :: bs =>
    if a = b then lcsLen as bs + 1
    else max (lcsLen as (b :: bs)) (lcsLen (a :: as) bs)
termination_by l r => l.length + r.length

/-- Modelled from the spec: the line-oriented LCS diff (§4.2; the DiffEngine
is absent from `src/`, which only renders its chunks). Matching heads become
context lines; otherwise the side whose remainder keeps the longer common
subsequence is consumed, preferring removals on ties (the canonical
tie-break). The fuel argument is one unit per consumed line;
`diffEdits` supplies enough for the whole input, so the fuel-exhausted
fallback (remove everything, add everything) is never reached. -/
def diffGo : Nat → List String → List String → List Edit
  | 0, as, bs => as.map .del ++ bs.map .ins
  | _ + 1, [], [] => []
  | fuel + 1, [], b :: bs => .ins b :: diffGo fuel [] bs
  | fuel + 1, a :: as, [] => .del a :: diffGo fuel as []
  | fuel + 1, a :: as, b :: bs =>
    if a = b then .ctx a :: diffGo fuel as bs
    else if lcsLen (a :: as) bs ≤ lcsLen as (b :: bs) then
      .del a :: diffGo fuel as (b :: bs)
    else
      .ins b :: diffGo fuel (a :: as) bs

/-- The full aligned sequence of context/add/remove lines between two
contents, given as their line sequences. -/
def diffEdits (oldLines newLines : List String) : List Edit :=
  diffGo (oldLines.length + newLines.length) oldLines newLines

/-- A diff chunk (§3 DiffChunk): kind, 1-based line numbers, line counts and
the raw lines of the chunk. Counts are 0 for a chunk entirely of the
opposite kind. -/
structure DiffChunk where
  kind : EditKind
  oldStart : Nat
  oldLines : Nat
  newStart : Nat
  newLines : Nat
  lines : List String
deriving DecidableEq

/-- Whether lines of this kind are present in the old content. -/
def consumesOld (k : EditKind) : Bool :=
  match k with
  | .context => true
  | .remove => true
  | .add => false

/-- Whether lines of this kind are present in the new content. -/
def consumesNew (k : EditKind) : Bool :=
  match k with
  | .context => true
  | .add => true
  | .remove => false

/-- A fresh single-line chunk started at old position `o` and new position
`n` (1-based). -/
def newChunk (k : EditKind) (o n : Nat) (s : String) : DiffChunk :=
  { kind := k
    oldStart := if consumesOld k then o else 0
    oldLines := if consumesOld k then 1 else 0
    newStart := if consumesNew k then n else 0
    newLines := if consumesNew k then 1 else 0
    lines := [s] }

/-- Fold state while grouping aligned diff lines into chunks: the old and
new position counters and the chunks built so far, newest first. -/
structure ChunkState where
  oldPos : Nat
  newPos : Nat
  rchunks : List DiffChunk

/-- Grouping step: extend the current run while the kind matches, otherwise
start a new chunk. -/
def chunkStep (st : ChunkState) (e : Edit) : ChunkState :=
  let k := e.kind
  let o' := if consumesOld k then st.oldPos + 1 else st.oldPos
  let n' := if consumesNew k then st.newPos + 1 else st.newPos
  let rchunks' :=
    match st.rchunks with
    | c :: rest =>
      if c.kind = k then
        { c with
          lines := c.lines ++ [e.line]
          oldLines := c.oldLines + (if consumesOld k then 1 else 0)
          newLines := c.newLines + (if consumesNew k then 1 else 0) } :: rest
      else
        newChunk k st.oldPos st.newPos e.line :: c :: rest
    | [] => [newChunk k st.oldPos st.newPos e.line]
  { oldPos := o', newPos := n', rchunks := rchunks' }

/-- Group an aligned diff line sequence into maximal same-kind chunks with
line numbering. -/
def chunksFromEdits (es : List Edit) : List DiffChunk :=
  (es.foldl chunkStep { oldPos := 1, newPos := 1, rchunks := [] }).rchunks.reverse

/-- Modelled from the spec: `DiffEngine.diff` (§4.2), producing the ordered
chunk sequence between two contents given as their line sequences. -/
def diffChunks (oldLines newLines : List String) : List DiffChunk :=
  chunksFromEdits (diffEdits oldLines newLines)

/-- Decidable check that `pat` is a leading run of `l`. -/
def startsWithLines : List String → List String → Bool
  | _, [] => true
  | [], _ :: _ => false
  | c :: cs, p :: ps => decide (c = p) && startsWithLines cs ps

/-- The aligned lines carried by a chunk. -/
def chunkEdits (c : DiffChunk) : List Edit :=
  c.lines.map (editOf c.kind)

/-- Flatten a chunk sequence back into its aligned diff lines. -/
def flattenChunks (cs : List DiffChunk) : List Edit :=
  (cs.map chunkEdits).flatten

/-- Apply one aligned diff line sequence to the old content: context and
remove lines must match and consume the old content, add lines insert; the
old content must be fully consumed. -/
def applyEdits : List String → List Edit → Option (List String)
  | old, [] => if old.isEmpty then some [] else none
  | old, .ctx s :: es =>
    match old with
    | o :: os => if o = s then (applyEdits os es).map (fun r => s :: r) else none
    | [] => none
  | old, .del s :: es =>
    match old with
    | o :: os => if o = s then applyEdits os es else none
    | [] => none
  | old, .ins s :: es => (applyEdits old es).map (fun r => s :: r)

/-- Reconstruction (§4.2, §8): apply a chunk sequence to the old content in
chunk order. Context and remove chunks must match and consume the old
content; context and add chunks contribute their lines to the result. -/
def applyChunks : List String → List DiffChunk → Option (List String)
  | old, [] => if old.isEmpty then some [] else none
  | old, c :: cs =>
    match c.kind with
    | .context =>
      if startsWithLines old c.lines then
        (applyChunks (old.drop c.lines.length) cs).map (fun r => c.lines ++ r)
      else none
    | .remove =>
      if startsWithLines old c.lines then
        applyChunks (old.drop c.lines.length) cs
      else none
    | .add => (applyChunks old cs).map (fun r => c.lines ++ r)

/-- Semantic version MAJOR.MINOR.PATCH (§3 Version). -/
structure SemVer where
  major : Nat
  minor : Nat
  patch : Nat
deriving DecidableEq

/-- Strict semantic-version ordering, lexicographic on
major, then minor, then patch. -/
def semverLt (x y : SemVer) : Bool :=
  decide (x.major < y.major) ||
    (decide (x.major = y.major) &&
      (decide (x.minor < y.minor) ||
        (decide (x.minor = y.minor) && decide (x.patch < y.patch))))

/-- Auto-increment of the PATCH component (§4.3). -/
def nextPatch (v : SemVer) : SemVer :=
  { major := v.major, minor := v.minor, patch := v.patch + 1 }

/-- Modelled from the spec: ContentHasher (§4.1; absent from `src/`). A
deterministic, collision-resistant fingerprint of the content; idealised as
an injective function of the line sequence. -/
def hashContent (content : List String) : List String :=
  content

/-- Modelled from the spec: a Version record (§3); content is carried as its
line sequence. -/
structure Version where
  versionString : SemVer
  content : List String
  contentHash : List String
  changeSummary : Option String
  authorId : String
  diffFromParent : Option (List DiffChunk)
deriving DecidableEq

/-- Modelled from the spec: the VersionStore's errors (§7). -/
inductive StoreError where
  | versionConflict
  | notFound
deriving DecidableEq

/-- Modelled from the spec: one Artifact's linear version history, oldest
first; the head is the last entry. -/
structure ArtifactStore where
  versions : List Version
deriving DecidableEq

/-- An Artifact with no versions yet. -/
def emptyStore : ArtifactStore := { versions := [] }

/-- The head Version: the most recently appended one. -/
def headVersion (st : ArtifactStore) : Option Version :=
  st.versions.getLast?

/-- Modelled from the spec: `VersionStore.createVersion` (§4.3; the
VersionStore is absent from `src/`, which only calls it over HTTP). If the
head already carries the hash of the submitted content the call is a no-op
returning the head. Otherwise an explicit version must be strictly greater
than the head or the call fails with `VersionConflictError`; with no
explicit version the PATCH component is auto-incremented. The first version
defaults to 1.0.0 and `diffFromParent` is otherwise computed by the
DiffEngine against the head's content. -/
def createVersion (st : ArtifactStore) (content : List String)
    (changeSummary : Option String) (authorId : String)
    (explicitVersion : Option SemVer) :
    Except StoreError (ArtifactStore × Version) :=
  match st.versions.getLast? with
  | none =>
    let v : Version :=
      { versionString := explicitVersion.getD { major := 1, minor := 0, patch := 0 }
        content := content
        contentHash := hashContent content
        changeSummary := changeSummary
        authorId := authorId
        diffFromParent := none }
    .ok ({ versions := st.versions ++ [v] }, v)
  | some head =>
    if head.contentHash = hashContent content then
      .ok (st, head)
    else
      match explicitVersion with
      | some vs =>
        if semverLt head.versionString vs then
          let v : Version :=
            { versionString := vs
              content := content
              contentHash := hashContent content
              changeSummary := changeSummary
              authorId := authorId
              diffFromParent := some (diffChunks head.content content) }
          .ok ({ versions := st.versions ++ [v] }, v)
        else
          .error .versionConflict
      | none =>
        let v : Version :=
          { versionString := nextPatch head.versionString
            content := content
            contentHash := hashContent content
            changeSummary := changeSummary
            authorId := authorId
            diffFromParent := some (diffChunks head.content content) }
        .ok ({ versions := st.versions ++ [v] }, v)

/-- The change summary a rollback derives from its reason (§4.3). -/
def rollbackSummary (reason : String) : String :=
  "Rollback: " ++ reason

/-- Modelled from the spec: `VersionStore.rollback` (§4.3; absent from
`src/`): reads the content of `toVersion` and calls `createVersion` with it
and a summary derived from `reason`; fails with `NotFoundError` when
`toVersion` does not exist. -/
def rollback (st : ArtifactStore) (toVersion : SemVer) (authorId : String)
    (reason : String) : Except StoreError (ArtifactStore × Version) :=
  match st.versions.find? (fun v => decide (v.versionString = toVersion)) with
  | none => .error .notFound
  | some tv =>
    createVersion st tv.content (some (rollbackSummary reason)) authorId none

/-- One createVersion request in a call sequence. -/
structure CreateReq where
  content : List String
  changeSummary : Option String
  authorId : String
  explicitVersion : Option SemVer

/-- Apply one createVersion request, a failed call leaving the Artifact
unchanged. -/
def stepStore (st : ArtifactStore) (r : CreateReq) : ArtifactStore :=
  match createVersion st r.content r.changeSummary r.authorId r.explicitVersion with
  | .ok (st', _) => st'
  | .error _ => st

/-- Apply a sequence of createVersion requests in order. -/
def runRequests (st : ArtifactStore) (rs : List CreateReq) : ArtifactStore :=
  rs.foldl stepStore st

/-- The Artifact's versionString sequence is strictly increasing under
semantic-version ordering (§3 Version invariant). -/
def storeMono (st : ArtifactStore) : Prop :=
  List.Chain' (fun a b => semverLt a.versionString b.versionString = true)
    st.versions

/-- Every stored Version's `contentHash` is the hash of its `content`
(§3 Version invariant). -/
def storeHashed (st : ArtifactStore) : Prop :=
  ∀ v ∈ st.versions, v.contentHash = hashContent v.content

/-- The character sequence of a string literal (JavaScript strings are
modelled as `List Char`). -/
def str (s : String) : List Char := s.data

/-- JavaScript `s.startsWith(pat)` over character sequences. -/
def startsWithL : List Char → List Char → Bool
  | _, [] => true
  | [], _ :: _ => false
  | c :: cs, p :: ps => decide (c = p) && startsWithL cs ps

/-- Index of the first occurrence of `pat` in a character sequence, if
any. -/
def findSub (pat : List Char) : List Char → Option Nat
  | [] => if startsWithL [] pat then some 0 else none
  | c :: s' =>
    if startsWithL (c :: s') pat then some 0
    else (findSub pat s').map (fun n => n + 1)

/-- JavaScript `s.indexOf(pat, start)`: index of the first occurrence of
`pat` at or after `start`, `none` standing for the source's `-1`. -/
def indexOfFrom (s pat : List Char) (start : Nat) : Option Nat :=
  (findSub pat (s.drop start)).map (fun n => n + start)

/-- JavaScript `s.split(sep)` for a single-character separator: always a
non-empty list of separator-free segments. -/
def splitOnCharL (sep : Char) : List Char → List (List Char)
  | [] => [[]]
  | c :: rest =>
    match splitOnCharL sep rest with
    | [] => [[]]
    | r :: rs => if c = sep then [] :: r :: rs else (c :: r) :: rs

/-- JavaScript `parts.join(sep)` for a single-character separator. -/
def joinSep (sep : Char) (parts : List (List Char)) : List Char :=
  List.intercalate [sep] parts

/-- The whitespace class used by the model of JavaScript `trim`. -/
def wsB (c : Char) : Bool := c.isWhitespace

/-- JavaScript `s.trim()`: strip leading and trailing whitespace. -/
def trimL (l : List Char) : List Char :=
  ((l.dropWhile wsB).reverse.dropWhile wsB).reverse

/-- JavaScript `s.slice(a, b)` for `a ≤ b ≤ s.length`. -/
def sliceL (l : List Char) (a b : Nat) : List Char :=
  (l.take b).drop a

/-- `pat` occurs as a contiguous block somewhere in `l`. -/
def occursIn (pat l : List Char) : Prop :=
  ∃ a b, l = a ++ pat ++ b

/-- Decidable check that `pat` occurs as a contiguous block in `l`. -/
def containsSub (pat : List Char) : List Char → Bool
  | [] => startsWithL [] pat
  | c :: s' => startsWithL (c :: s') pat || containsSub pat s'

/-- The first and last characters, when present, are not whitespace (the
sequence is stable under `trim`). -/
def noEdgeWS (l : List Char) : Prop :=
  l.head?.all (fun c => !wsB c) = true ∧ l.getLast?.all (fun c => !wsB c) = true

/-- The metadata record built by `parsePromptMetadata`, every field starting
out absent. -/
structure PromptMetadata where
  id : Option (List Char) := none
  name : Option (List Char) := none
  slug : Option (List Char) := none
  type : Option (List Char) := none
  version : Option (List Char) := none
deriving DecidableEq

/-- The prompt fields `formatPromptFile` embeds into a file. -/
structure PromptFile where
  id : List Char
  name : List Char
  slug : List Char
  version : List Char
  type : List Char
  content : List Char
deriving DecidableEq

/-- `formatPromptFile` from the IDE extension: a YAML frontmatter block
followed by a blank line and the content, all joined with newlines. -/
def formatPromptFile (p : PromptFile) : List Char :=
  List.intercalate ['\n']
    [str "---",
     str "hermes_id: " ++ p.id,
     str "name: " ++ p.name,
     str "slug: " ++ p.slug,
     str "version: " ++ p.version,
     str "type: " ++ p.type,
     str "---",
     [],
     p.content]

/-- One frontmatter line of `parsePromptMetadata`: split on `:`, require a
non-empty key and at least one value part, rejoin and trim the value, then
dispatch on the trimmed key. -/
def applyMetaLine (m : PromptMetadata) (line : List Char) : PromptMetadata :=
  match splitOnCharL ':' line with
  | [] => m
  | key :: valueParts =>
    if key ≠ [] ∧ valueParts ≠ [] then
      let value := trimL (joinSep ':' valueParts)
      let k := trimL key
      if k = str "hermes_id" ∨ k = str "id" then { m with id := some value }
      else if k = str "name" then { m with name := some value }
      else if k = str "slug" then { m with slug := some value }
      else if k = str "type" then { m with type := some value }
      else if k = str "version" then { m with version := some value }
      else m
    else m

/-- `parsePromptMetadata` from the IDE extension: when the content starts
with `---` and a closing `---` is found from index 3 on, fold the metadata
updates over the frontmatter's lines; otherwise every field stays absent. -/
def parsePromptMetadata (content : List Char) : PromptMetadata :=
  if startsWithL content (str "---") then
    match indexOfFrom content (str "---") 3 with
    | some endIndex =>
      (splitOnCharL '\n' (sliceL content 3 endIndex)).foldl applyMetaLine {}
    | none => {}
  else {}

/-- `extractPromptContent` from the IDE extension: strip the frontmatter
when present and trim the remainder; otherwise return the content
unchanged. -/
def extractPromptContent (content : List Char) : List Char :=
  if startsWithL content (str "---") then
    match indexOfFrom content (str "---") 3 with
    | some endIndex => trimL (content.drop (endIndex + 3))
    | none => content
  else content

/-- A field value that survives the frontmatter round trip: no newline, no
embedded `---`, and no leading or trailing whitespace. -/
def cleanField (f : List Char) : Prop :=
  '\n' ∉ f ∧ containsSub (str "---") f = false ∧ noEdgeWS f

/-- Scenario 5 blocking minimum-score rule (threshold 75). -/
def rule5a : GateRule :=
  { id := "r1", name := "min", kind := "minimum_score", threshold := 75,
    dimension := "", tolerance := 0, blocking := true }

/-- Scenario 5 non-blocking no-regression rule (tolerance 2). -/
def rule5b : GateRule :=
  { id := "r2", name := "noreg", kind := "no_regression", threshold := 0,
    dimension := "", tolerance := 2, blocking := false }

/-- Scenario 5 latest benchmark result (overall score 80). -/
def latest5 : BenchResult :=
  { overallScore := 80, dimensionScores := [("clarity", 80)] }

/-- Scenario 5 history: one prior result with overall score 85. -/
def hist5 : List BenchResult :=
  [{ overallScore := 85, dimensionScores := [] }]

/-- A rule of a kind the evaluator does not support. -/
def badRule : GateRule :=
  { id := "rx", name := "custom", kind := "exotic_kind", threshold := 0,
    dimension := "", tolerance := 0, blocking := true }

/-- The frontmatter body of a formatted prompt file: leading newline, five
`key: value` lines each terminated by a newline (what stands between the
opening and closing `---` markers). -/
def headerMid (p : PromptFile) : List Char :=
  '\n' :: (str "hermes_id: " ++ (p.id ++
    ('\n' :: (str "name: " ++ (p.name ++
      ('\n' :: (str "slug: " ++ (p.slug ++
        ('\n' :: (str "version: " ++ (p.version ++
          ('\n' :: (str "type: " ++ (p.type ++ ['\n']))))))))))))))

/-- A concrete first Version 1.0.0 with content line "A". -/
def v0 : Version :=
  { versionString := { major := 1, minor := 0, patch := 0 }
    content := ["A"]
    contentHash := hashContent ["A"]
    changeSummary := none
    authorId := "alice"
    diffFromParent := none }

/-- A concrete Artifact whose only Version is `v0`. -/
def st0 : ArtifactStore := { versions := [v0] }

/-- A concrete second Version 1.0.1 with content lines "A", "B". -/
def v1 : Version :=
  { versionString := { major := 1, minor := 0, patch := 1 }
    content := ["A", "B"]
    contentHash := hashContent ["A", "B"]
    changeSummary := some "add B"
    authorId := "alice"
    diffFromParent := some (diffChunks ["A"] ["A", "B"]) }

/-- A concrete Artifact with history `v0, v1` (head `v1`). -/
def st1 : ArtifactStore := { versions := [v0, v1] }

instance (l : List Char) : Decidable (noEdgeWS l) := by
  unfold noEdgeWS
  infer_instance

instance (f : List Char) : Decidable (cleanField f) := by
  unfold cleanField
  infer_instance

/-- A concrete prompt with clean fields, for the round-trip witness. -/
def pWit : PromptFile :=
  { id := str "p1", name := str "My Prompt", slug := str "my-prompt",
    version := str "1.0.0", type := str "system",
    content := str "Hello world" }

/-- A concrete prompt whose name carries a trailing space. -/
def pCex : PromptFile :=
  { id := str "p1", name := str "x ", slug := str "s",
    version := str "1", type := str "t", content := str "c" }

/-- C10: at the client's public interface, `getPrompt` and `getPromptBySlug`
return `null` exactly when the server responds 404 and re-throw every other
error unchanged, while the other operations (`getVersionHistory`,
`rollbackVersion`) propagate all errors, 404 included. -/
theorem client_404_c10 :
    (∀ e : HttpError,
        (getPromptResult (.error e) = .ok none ↔ e.status = some 404)
        ∧ (e.status ≠ some 404 → getPromptResult (.error e) = .error e))
    ∧ (∀ p, getPromptResult (.ok p) = .ok (some p))
    ∧ (∀ e : HttpError,
        (getPromptBySlugResult (.error e) = .ok none ↔ e.status = some 404)
        ∧ (e.status ≠ some 404 → getPromptBySlugResult (.error e) = .error e))
    ∧ (∀ p, getPromptBySlugResult (.ok p) = .ok (some p))
    ∧ (∀ e, getVersionHistoryResult (.error e) = .error e)
    ∧ (∀ e, rollbackVersionResult (.error e) = .error e) := by
  refine ⟨fun e => ⟨?_, ?_⟩, fun p => rfl, fun e => ⟨?_, ?_⟩, fun p => rfl,
    fun e => rfl, fun e => rfl⟩ <;>
    simp only [getPromptResult, getPromptBySlugResult] <;>
    by_cases h : e.status = some 404 <;> simp [h]

/-- C10 witness: a 404 error yields `null`, a 500 error is re-thrown, and
`getVersionHistory` re-throws even a 404. -/
theorem client_404_c10_witness :
    getPromptResult (.error { status := some 404 }) = .ok none
    ∧ getPromptResult (.error { status := some 500 }) =
        .error { status := some 500 }
    ∧ getVersionHistoryResult (.error { status := some 404 }) =
        .error { status := some 404 } :=
  ⟨(client_404_c10.1 { status := some 404 }).1.mpr rfl,
   (client_404_c10.1 { status := some 500 }).2 (by decide),
   client_404_c10.2.2.2.2.1 { status := some 404 }⟩

/-- C6: for every non-empty score mapping, `aggregate` succeeds with
`overallScore` the arithmetic mean rounded to one decimal place, `delta`
present (and equal to `overallScore - baselineScore`) exactly when a
baseline is supplied, and `gatePassed` equal to
`overallScore ≥ gateThreshold`. -/
theorem aggregate_c6 (ds : List (String × ℚ)) (b : Option ℚ) (t : ℚ)
    (hne : ds ≠ []) :
    ∃ r, aggregate ds b t = .ok r
      ∧ r.overallScore = round1 ((ds.map (fun d => d.2)).sum / (ds.length : ℚ))
      ∧ r.delta = b.map (fun x => r.overallScore - x)
      ∧ (r.delta = none ↔ b = none)
      ∧ r.gatePassed = decide (t ≤ r.overallScore) := by
  have hni : ds.isEmpty = false := by
    cases ds with
    | nil => exact absurd rfl hne
    | cons d ds => rfl
  refine
    ⟨{ overallScore := round1 ((ds.map (fun d => d.2)).sum / (ds.length : ℚ))
       delta := b.map (fun x =>
         round1 ((ds.map (fun d => d.2)).sum / (ds.length : ℚ)) - x)
       gatePassed :=
         decide (t ≤ round1 ((ds.map (fun d => d.2)).sum / (ds.length : ℚ))) },
     ?_, rfl, rfl, ?_, rfl⟩
  · simp [aggregate, hni]
  · cases b <;> simp

/-- C6 witness (Scenario 4): dimension scores clarity 90 and safety 70 with
baseline 75 give overall score 80 and delta 5. -/
theorem aggregate_c6_witness :
    ∃ r, aggregate [("clarity", (90 : ℚ)), ("safety", 70)] (some 75) 75 = .ok r
      ∧ r.overallScore = 80 ∧ r.delta = some 5 ∧ r.gatePassed = true := by
  obtain ⟨r, hr, ho, hd, _, hg⟩ :=
    aggregate_c6 [("clarity", (90 : ℚ)), ("safety", 70)] (some 75) 75
      (by decide)
  have hov : r.overallScore = 80 := by
    rw [ho]
    unfold round1
    rw [round_eq]
    norm_num
  refine ⟨r, hr, hov, ?_, ?_⟩
  · rw [hd, hov]
    norm_num
  · rw [hg, hov]
    norm_num

/-- Rounding to one decimal place is monotone. -/
theorem round1_mono {x y : ℚ} (h : x ≤ y) : round1 x ≤ round1 y := by
  unfold round1
  have h1 : round (10 * x) ≤ round (10 * y) := by
    rw [round_eq, round_eq]
    exact Int.floor_le_floor (by linarith)
  have h2 : ((round (10 * x) : ℤ) : ℚ) ≤ ((round (10 * y) : ℤ) : ℚ) :=
    Int.cast_le.mpr h1
  linarith

/-- Rounding to one decimal place fixes every integer multiple of 1/10. -/
theorem round1_tenth (k : ℤ) : round1 ((k : ℚ) / 10) = (k : ℚ) / 10 := by
  unfold round1
  rw [show (10 : ℚ) * ((k : ℚ) / 10) = (k : ℚ) by ring, round_intCast]

/-- A lower bound on every element bounds the mean from below. -/
theorem le_listMean (l : List ℚ) (hl : l ≠ []) (a : ℚ) (h : ∀ x ∈ l, a ≤ x) :
    a ≤ l.sum / (l.length : ℚ) := by
  have hpos : (0 : ℚ) < (l.length : ℚ) := by
    exact_mod_cast List.length_pos.mpr hl
  rw [le_div_iff₀ hpos]
  have hs : l.length • a ≤ l.sum := List.card_nsmul_le_sum l a h
  rw [nsmul_eq_mul] at hs
  linarith

/-- An upper bound on every element bounds the mean from above. -/
theorem listMean_le (l : List ℚ) (hl : l ≠ []) (a : ℚ) (h : ∀ x ∈ l, x ≤ a) :
    l.sum / (l.length : ℚ) ≤ a := by
  have hpos : (0 : ℚ) < (l.length : ℚ) := by
    exact_mod_cast List.length_pos.mpr hl
  rw [div_le_iff₀ hpos]
  have hs : l.sum ≤ l.length • a := List.sum_le_card_nsmul l a h
  rw [nsmul_eq_mul] at hs
  linarith

/-- A successful aggregation's overall score is the rounded mean of the
dimension scores. -/
theorem aggregate_overall_eq (ds : List (String × ℚ)) (b : Option ℚ) (t : ℚ)
    (r : AggResult) (hne : ds ≠ []) (hr : aggregate ds b t = .ok r) :
    r.overallScore =
      round1 ((ds.map (fun d => d.2)).sum /
        (((ds.map (fun d => d.2)).length : ℕ) : ℚ)) := by
  have hni : ds.isEmpty = false := by
    cases ds with
    | nil => exact absurd rfl hne
    | cons d ds => rfl
  simp only [aggregate, hni, Bool.false_eq_true, if_false] at hr
  rw [Except.ok.injEq] at hr
  rw [← hr]

/-- C7 (amended): when every dimension score is an integer multiple of 1/10
(integer scores in particular), the overall score lies within
[min(dimensionScores), max(dimensionScores)]; with finer-grained scores the
one-decimal rounding can leave that interval (see the counterexample). -/
theorem aggregate_range_c7 (ds : List (String × ℚ)) (b : Option ℚ)
    (t lo hi : ℚ) (r : AggResult) (hne : ds ≠ [])
    (htenth : ∀ x ∈ ds.map (fun d => d.2), ∃ k : ℤ, x = (k : ℚ) / 10)
    (hlo_mem : lo ∈ ds.map (fun d => d.2))
    (hhi_mem : hi ∈ ds.map (fun d => d.2))
    (hlo : ∀ x ∈ ds.map (fun d => d.2), lo ≤ x)
    (hhi : ∀ x ∈ ds.map (fun d => d.2), x ≤ hi)
    (hr : aggregate ds b t = .ok r) :
    lo ≤ r.overallScore ∧ r.overallScore ≤ hi := by
  have ho := aggregate_overall_eq ds b t r hne hr
  have hvne : ds.map (fun d => d.2) ≠ [] := by
    simpa using hne
  have h1 : lo ≤ (ds.map (fun d => d.2)).sum /
      (((ds.map (fun d => d.2)).length : ℕ) : ℚ) :=
    le_listMean _ hvne lo hlo
  have h2 : (ds.map (fun d => d.2)).sum /
      (((ds.map (fun d => d.2)).length : ℕ) : ℚ) ≤ hi :=
    listMean_le _ hvne hi hhi
  obtain ⟨k1, hk1⟩ := htenth lo hlo_mem
  obtain ⟨k2, hk2⟩ := htenth hi hhi_mem
  constructor
  · have : round1 lo ≤ r.overallScore := by
      rw [ho]
      exact round1_mono h1
    rwa [hk1, round1_tenth, ← hk1] at this
  · have : r.overallScore ≤ round1 hi := by
      rw [ho]
      exact round1_mono h2
    rwa [hk2, round1_tenth, ← hk2] at this

/-- C7 counterexample: with the single dimension score 1/25 = 0.04 the
rounded overall score is 0, strictly below the minimum (and maximum)
dimension score, so the claimed range containment fails as stated. -/
theorem aggregate_range_cex_c7 :
    ∃ r, aggregate [("dim", (1 : ℚ) / 25)] none 0 = .ok r
      ∧ r.overallScore < 1 / 25 := by
  refine ⟨_, rfl, ?_⟩
  show round1 _ < _
  unfold round1
  rw [round_eq]
  norm_num

/-- A non-empty score mapping always aggregates successfully. -/
theorem aggregate_ok_exists (ds : List (String × ℚ)) (b : Option ℚ) (t : ℚ)
    (hne : ds ≠ []) : ∃ r, aggregate ds b t = .ok r := by
  have hni : ds.isEmpty = false := by
    cases ds with
    | nil => exact absurd rfl hne
    | cons d ds => rfl
  refine
    ⟨{ overallScore :=
         round1 ((ds.map (fun d => d.2)).sum /
           (((ds.map (fun d => d.2)).length : ℕ) : ℚ))
       delta := b.map (fun x =>
         round1 ((ds.map (fun d => d.2)).sum /
           (((ds.map (fun d => d.2)).length : ℕ) : ℚ)) - x)
       gatePassed :=
         decide (t ≤ round1 ((ds.map (fun d => d.2)).sum /
           (((ds.map (fun d => d.2)).length : ℕ) : ℚ))) }, ?_⟩
  simp [aggregate, hni]

/-- C7 witness for the amended claim: with scores clarity 90 and safety 70
the overall score lies within [70, 90]. -/
theorem aggregate_range_c7_witness :
    ∃ r, aggregate [("clarity", (90 : ℚ)), ("safety", 70)] none 75 = .ok r
      ∧ 70 ≤ r.overallScore ∧ r.overallScore ≤ 90 := by
  obtain ⟨r, hr⟩ :=
    aggregate_ok_exists [("clarity", (90 : ℚ)), ("safety", 70)] none 75
      (by simp)
  refine ⟨r, hr, aggregate_range_c7 [("clarity", (90 : ℚ)), ("safety", 70)]
    none 75 70 90 r (by simp) ?_ (by simp) (by simp) ?_ ?_ hr⟩
  · intro x hx
    simp only [List.map_cons, List.map_nil, List.mem_cons,
      List.not_mem_nil, or_false] at hx
    rcases hx with h | h
    · exact ⟨900, by rw [h]; norm_num⟩
    · exact ⟨700, by rw [h]; norm_num⟩
  · intro x hx
    simp only [List.map_cons, List.map_nil, List.mem_cons,
      List.not_mem_nil, or_false] at hx
    rcases hx with h | h <;> norm_num [h]
  · intro x hx
    simp only [List.map_cons, List.map_nil, List.mem_cons,
      List.not_mem_nil, or_false] at hx
    rcases hx with h | h <;> norm_num [h]

/-- Specification of a successful rule-list evaluation: one evaluation per
rule, in order, each built from its rule's condition by the status
mapping. -/
theorem evalRules_spec (latest : BenchResult) (history : List BenchResult) :
    ∀ (rules : List GateRule) (evs : List GateEvaluation),
      evalRules latest history rules = .ok evs →
      evs.length = rules.length ∧
      ∀ i (hi : i < rules.length) (hi' : i < evs.length),
        ∃ c, ruleCondition latest history (rules.get ⟨i, hi⟩) = .ok c ∧
          evs.get ⟨i, hi'⟩ =
            { ruleId := (rules.get ⟨i, hi⟩).id
              ruleName := (rules.get ⟨i, hi⟩).name
              status := statusOf c (rules.get ⟨i, hi⟩).blocking
              message := ruleMessage (rules.get ⟨i, hi⟩) c
              blocking := (rules.get ⟨i, hi⟩).blocking } := by
  intro rules
  induction rules with
  | nil =>
    intro evs h
    simp only [evalRules, Except.ok.injEq] at h
    subst h
    exact ⟨rfl, fun i hi _ => absurd hi (Nat.not_lt_zero i)⟩
  | cons r rs ih =>
    intro evs h
    simp only [evalRules] at h
    cases hr : evalRule latest history r with
    | error e => rw [hr] at h; exact absurd h (by simp)
    | ok ev =>
      rw [hr] at h
      cases hrs : evalRules latest history rs with
      | error e => rw [hrs] at h; exact absurd h (by simp)
      | ok evs' =>
        rw [hrs] at h
        rw [Except.ok.injEq] at h
        subst h
        obtain ⟨hlen, hspec⟩ := ih evs' hrs
        refine ⟨by simp [hlen], ?_⟩
        intro i hi hi'
        cases i with
        | zero =>
          unfold evalRule at hr
          cases hc : ruleCondition latest history r with
          | error e => rw [hc] at hr; exact absurd hr (by simp [Except.map])
          | ok c =>
            rw [hc] at hr
            simp only [Except.map, Except.ok.injEq] at hr
            exact ⟨c, hc, by simp [← hr]⟩
        | succ n =>
          have hn : n < rs.length := by simpa using hi
          have hn' : n < evs'.length := by simpa using hi'
          obtain ⟨c, hc, he⟩ := hspec n hn hn'
          exact ⟨c, hc, he⟩

/-- C2: a successful gate evaluation has one GateEvaluation per rule in rule
order; a failing condition yields `failed` when the rule blocks and
`warning` otherwise, a holding condition yields `passed`; `canDeploy` holds
iff no evaluation failed; `blockers` and `warnings` are the messages of the
`failed` and `warning` evaluations. -/
theorem evaluate_gate_c2 (rules : List GateRule) (latest : BenchResult)
    (history : List BenchResult) (v : GateVerdict)
    (h : evaluate rules latest history = .ok v) :
    v.evaluations.length = rules.length
    ∧ (∀ i (hi : i < rules.length) (hi' : i < v.evaluations.length),
        ∃ c, ruleCondition latest history (rules.get ⟨i, hi⟩) = .ok c
          ∧ (c = false → (rules.get ⟨i, hi⟩).blocking = true →
              (v.evaluations.get ⟨i, hi'⟩).status = .failed)
          ∧ (c = false → (rules.get ⟨i, hi⟩).blocking = false →
              (v.evaluations.get ⟨i, hi'⟩).status = .warning)
          ∧ (c = true → (v.evaluations.get ⟨i, hi'⟩).status = .passed)
          ∧ (v.evaluations.get ⟨i, hi'⟩).blocking = (rules.get ⟨i, hi⟩).blocking)
    ∧ (v.canDeploy = true ↔ ∀ ev ∈ v.evaluations, ev.status ≠ .failed)
    ∧ v.blockers =
        (v.evaluations.filter (fun ev => decide (ev.status = .failed))).map
          (fun ev => ev.message)
    ∧ v.warnings =
        (v.evaluations.filter (fun ev => decide (ev.status = .warning))).map
          (fun ev => ev.message) := by
  unfold evaluate at h
  cases hrs : evalRules latest history rules with
  | error e => rw [hrs] at h; exact absurd h (by simp)
  | ok evs =>
    rw [hrs] at h
    rw [Except.ok.injEq] at h
    subst h
    obtain ⟨hlen, hspec⟩ := evalRules_spec latest history rules evs hrs
    refine ⟨hlen, ?_, ?_, rfl, rfl⟩
    · intro i hi hi'
      obtain ⟨c, hc, he⟩ := hspec i hi hi'
      refine ⟨c, hc, ?_, ?_, ?_, ?_⟩
      · intro hcf hbt
        rw [he]
        simp only [List.get_eq_getElem] at hbt ⊢
        simp [statusOf, hcf, hbt]
      · intro hcf hbf
        rw [he]
        simp only [List.get_eq_getElem] at hbf ⊢
        simp [statusOf, hcf, hbf]
      · intro hct
        rw [he]
        simp [statusOf, hct]
      · rw [he]
    · simp only [List.all_eq_true, decide_eq_true_eq]

/-- A supported rule kind always produces a condition value. -/
theorem ruleCondition_ok_of_supported (latest : BenchResult)
    (history : List BenchResult) (r : GateRule)
    (h : supportedKind r.kind = true) :
    ∃ c, ruleCondition latest history r = .ok c := by
  unfold ruleCondition
  by_cases h1 : (r.kind == "minimum_score") = true
  · rw [if_pos h1]
    exact ⟨_, rfl⟩
  · rw [if_neg h1]
    by_cases h2 : (r.kind == "dimension_floor") = true
    · rw [if_pos h2]
      cases lookupDim latest.dimensionScores r.dimension with
      | none => exact ⟨false, rfl⟩
      | some s => exact ⟨_, rfl⟩
    · rw [if_neg h2]
      have h3 : (r.kind == "no_regression") = true := by
        unfold supportedKind at h
        rcases Bool.or_eq_true_iff.mp h with h12 | h3
        · rcases Bool.or_eq_true_iff.mp h12 with ha | hb
          · exact absurd ha h1
          · exact absurd hb h2
        · exact h3
      rw [if_pos h3]
      cases history.head? with
      | none => exact ⟨true, rfl⟩
      | some prior => exact ⟨_, rfl⟩

/-- An unsupported rule kind fails its condition with
`UnsupportedRuleError`. -/
theorem ruleCondition_error_of_unsupported (latest : BenchResult)
    (history : List BenchResult) (r : GateRule)
    (h : supportedKind r.kind = false) :
    ruleCondition latest history r = .error { kind := r.kind } := by
  unfold supportedKind at h
  rcases Bool.or_eq_false_iff.mp h with ⟨h12, h3⟩
  rcases Bool.or_eq_false_iff.mp h12 with ⟨h1, h2⟩
  unfold ruleCondition
  rw [if_neg (by simp [h1]), if_neg (by simp [h2]), if_neg (by simp [h3])]

/-- C8: a rule list containing any rule of unsupported kind makes the whole
evaluation fail with `UnsupportedRuleError`; no `GateVerdict` is produced at
all. -/
theorem evaluate_unsupported_c8 (rules : List GateRule)
    (latest : BenchResult) (history : List BenchResult)
    (h : ∃ r ∈ rules, supportedKind r.kind = false) :
    (∃ e, evaluate rules latest history = .error e)
    ∧ ∀ v, evaluate rules latest history ≠ .ok v := by
  have herr : ∃ e, evalRules latest history rules = .error e := by
    induction rules with
    | nil => obtain ⟨r, hr, _⟩ := h; exact absurd hr (List.not_mem_nil r)
    | cons r rs ih =>
      obtain ⟨r', hr', hk'⟩ := h
      rcases List.mem_cons.mp hr' with heq | hmem
      · subst heq
        refine ⟨{ kind := r'.kind }, ?_⟩
        simp only [evalRules, evalRule,
          ruleCondition_error_of_unsupported latest history r' hk', Except.map]
      · by_cases hk : supportedKind r.kind = false
        · refine ⟨{ kind := r.kind }, ?_⟩
          simp only [evalRules, evalRule,
            ruleCondition_error_of_unsupported latest history r hk, Except.map]
        · obtain ⟨c, hc⟩ := ruleCondition_ok_of_supported latest history r
            (by revert hk; cases supportedKind r.kind <;> simp)
          obtain ⟨e, he⟩ := ih ⟨r', hmem, hk'⟩
          refine ⟨e, ?_⟩
          simp only [evalRules, evalRule, hc, Except.map, he]
  obtain ⟨e, he⟩ := herr
  constructor
  · exact ⟨e, by simp only [evaluate, he]⟩
  · intro v hv
    rw [evaluate, he] at hv
    exact absurd hv (by simp)

/-- C2 witness (Scenario 5): minimum_score 75 (blocking) passes on score 80,
no_regression with tolerance 2 against prior 85 yields a warning (not
blocking), so the verdict allows deployment with one warning and no
blockers. -/
theorem evaluate_gate_c2_witness :
    ∃ v, evaluate [rule5a, rule5b] latest5 hist5 = .ok v
      ∧ v.canDeploy = true ∧ v.blockers = [] ∧ v.warnings.length = 1
      ∧ v.evaluations.length = 2 := by
  have hc1 : ruleCondition latest5 hist5 rule5a = .ok true := by
    unfold ruleCondition
    rw [if_pos (by decide)]
    show Except.ok (decide ((75 : ℚ) ≤ 80)) = _
    rw [show decide ((75 : ℚ) ≤ 80) = true from by decide]
  have hc2 : ruleCondition latest5 hist5 rule5b = .ok false := by
    have hd : decide ((85 : ℚ) - 2 ≤ 80) = false := by
      rw [decide_eq_false_iff_not]
      norm_num
    unfold ruleCondition
    rw [if_neg (by decide), if_neg (by decide), if_pos (by decide)]
    show Except.ok (decide ((85 : ℚ) - 2 ≤ 80)) = _
    rw [hd]
  have hev : evalRules latest5 hist5 [rule5a, rule5b] =
      .ok [{ ruleId := "r1", ruleName := "min", status := .passed,
             message := "passed: min", blocking := true },
           { ruleId := "r2", ruleName := "noreg", status := .warning,
             message := "failed: noreg", blocking := false }] := by
    simp only [evalRules, evalRule, hc1, hc2, Except.map]
    rfl
  have hv : evaluate [rule5a, rule5b] latest5 hist5 =
      .ok { canDeploy := true
            evaluations :=
              [{ ruleId := "r1", ruleName := "min", status := .passed,
                 message := "passed: min", blocking := true },
               { ruleId := "r2", ruleName := "noreg", status := .warning,
                 message := "failed: noreg", blocking := false }]
            blockers := []
            warnings := ["failed: noreg"]
            summary := "quality gate evaluated" } := by
    simp only [evaluate, hev]
    rfl
  exact ⟨_, hv, rfl, rfl, rfl,
    (evaluate_gate_c2 [rule5a, rule5b] latest5 hist5 _ hv).1.trans rfl⟩

/-- C8 witness: a single rule of kind `exotic_kind` makes the whole
evaluation fail with `UnsupportedRuleError` and no verdict is produced. -/
theorem evaluate_unsupported_c8_witness :
    (∃ e, evaluate [badRule] latest5 [] = .error e)
    ∧ ∀ v, evaluate [badRule] latest5 [] ≠ .ok v :=
  evaluate_unsupported_c8 [badRule] latest5 []
    ⟨badRule, by simp, by decide⟩

/-- The auto-incremented PATCH version is strictly greater. -/
theorem semverLt_nextPatch (v : SemVer) : semverLt v (nextPatch v) = true := by
  simp [semverLt, nextPatch]

/-- Shape of every successful `createVersion` call: either a no-op that
returns the stored head unchanged, or an append of a freshly built Version
that is strictly greater than the previous head (PATCH-incremented when no
explicit version was supplied). -/
theorem createVersion_ok_rec (st : ArtifactStore) (content : List String)
    (cs : Option String) (a : String) (ev : Option SemVer)
    (st' : ArtifactStore) (v' : Version)
    (h : createVersion st content cs a ev = .ok (st', v')) :
    (st' = st ∧ st.versions.getLast? = some v'
      ∧ v'.contentHash = hashContent content)
    ∨ (st'.versions = st.versions ++ [v']
        ∧ v'.content = content ∧ v'.contentHash = hashContent content
        ∧ v'.changeSummary = cs ∧ v'.authorId = a
        ∧ (st.versions.getLast? = none ∨
            ∃ head, st.versions.getLast? = some head
              ∧ semverLt head.versionString v'.versionString = true
              ∧ (ev = none → v'.versionString = nextPatch head.versionString))) := by
  unfold createVersion at h
  split at h
  case _ hl =>
    rw [Except.ok.injEq, Prod.mk.injEq] at h
    obtain ⟨h1, h2⟩ := h
    right
    rw [← h1, ← h2]
    exact ⟨rfl, rfl, rfl, rfl, rfl, .inl hl⟩
  case _ head hl =>
    split at h
    case isTrue hh =>
      rw [Except.ok.injEq, Prod.mk.injEq] at h
      obtain ⟨h1, h2⟩ := h
      left
      rw [← h1, ← h2]
      exact ⟨rfl, hl, hh⟩
    case isFalse hh =>
      split at h
      case _ vs =>
        split at h
        case isTrue hlt =>
          rw [Except.ok.injEq, Prod.mk.injEq] at h
          obtain ⟨h1, h2⟩ := h
          right
          rw [← h1, ← h2]
          refine ⟨rfl, rfl, rfl, rfl, rfl, .inr ⟨head, hl, hlt, ?_⟩⟩
          intro hcontra
          exact absurd hcontra (by simp)
        case isFalse hlt =>
          exact absurd h (by simp)
      case _ =>
        rw [Except.ok.injEq, Prod.mk.injEq] at h
        obtain ⟨h1, h2⟩ := h
        right
        rw [← h1, ← h2]
        exact ⟨rfl, rfl, rfl, rfl, rfl,
          .inr ⟨head, hl, semverLt_nextPatch _, fun _ => rfl⟩⟩

/-- A single createVersion request preserves the strictly increasing
versionString invariant. -/
theorem storeMono_step (st : ArtifactStore) (r : CreateReq)
    (h : storeMono st) : storeMono (stepStore st r) := by
  unfold stepStore
  cases hc : createVersion st r.content r.changeSummary r.authorId
      r.explicitVersion with
  | error e => exact h
  | ok p =>
    obtain ⟨st', v'⟩ := p
    rcases createVersion_ok_rec st r.content r.changeSummary r.authorId
      r.explicitVersion st' v' hc with
      ⟨h1, _, _⟩ | ⟨h1, _, _, _, _, hlast⟩
    · rw [h1]
      exact h
    · show storeMono st'
      unfold storeMono at h ⊢
      rw [h1, List.chain'_append]
      refine ⟨h, List.chain'_singleton _, ?_⟩
      intro x hx y hy
      rcases hlast with hnone | ⟨head, hsome, hlt, _⟩
      · rw [hnone] at hx
        exact absurd hx (by simp)
      · rw [hsome] at hx
        simp only [Option.mem_def, Option.some.injEq] at hx
        simp only [List.head?_cons, Option.mem_def, Option.some.injEq] at hy
        rw [← hx, ← hy]
        exact hlt

/-- Any request sequence starting from a monotone store keeps it
monotone. -/
theorem storeMono_run (rs : List CreateReq) :
    ∀ st, storeMono st → storeMono (runRequests st rs) := by
  induction rs with
  | nil => intro st h; exact h
  | cons r rs ih =>
    intro st h
    exact ih (stepStore st r) (storeMono_step st r h)

/-- With changed content and no explicit version, createVersion appends a
PATCH-incremented Version carrying the submitted content and summary. -/
theorem createVersion_autoPatch (st : ArtifactStore) (head : Version)
    (content : List String) (cs : Option String) (a : String)
    (hl : st.versions.getLast? = some head)
    (hh : head.contentHash ≠ hashContent content) :
    ∃ st' v', createVersion st content cs a none = .ok (st', v')
      ∧ st'.versions = st.versions ++ [v']
      ∧ v'.content = content
      ∧ v'.changeSummary = cs
      ∧ v'.versionString = nextPatch head.versionString := by
  refine ⟨_, { versionString := nextPatch head.versionString
               content := content
               contentHash := hashContent content
               changeSummary := cs
               authorId := a
               diffFromParent := some (diffChunks head.content content) },
    ?_, rfl, rfl, rfl, rfl⟩
  unfold createVersion
  rw [hl]
  show (if head.contentHash = hashContent content then _ else _) = _
  rw [if_neg hh]

/-- C3 (amended): every sequence of createVersion requests keeps the
Artifact's versionString sequence strictly increasing; when the submitted
content differs from the head's, an explicit version that is not strictly
greater fails with `VersionConflictError`, and the PATCH component is
auto-incremented when no explicit version is supplied. (As stated, the
conflict clause of the claim ignores the idempotent no-op: see the
counterexample.) -/
theorem createVersion_monotonic_c3 :
    (∀ st r, storeMono st → storeMono (stepStore st r))
    ∧ (∀ rs, storeMono (runRequests emptyStore rs))
    ∧ (∀ st head content cs a vnew,
        st.versions.getLast? = some head →
        head.contentHash ≠ hashContent content →
        semverLt head.versionString vnew = false →
        createVersion st content cs a (some vnew) = .error .versionConflict)
    ∧ (∀ st head content cs a,
        st.versions.getLast? = some head →
        head.contentHash ≠ hashContent content →
        ∃ st' v', createVersion st content cs a none = .ok (st', v')
          ∧ v'.versionString = nextPatch head.versionString
          ∧ st'.versions = st.versions ++ [v']) := by
  refine ⟨storeMono_step, ?_, ?_, ?_⟩
  · intro rs
    exact storeMono_run rs emptyStore (List.chain'_nil)
  · intro st head content cs a vnew hl hh hlt
    unfold createVersion
    rw [hl]
    show (if head.contentHash = hashContent content then _ else _) = _
    rw [if_neg hh]
    show (if semverLt head.versionString vnew = true then _ else _) = _
    rw [if_neg (by rw [hlt]; exact Bool.false_ne_true)]
  · intro st head content cs a hl hh
    obtain ⟨st', v', h1, h2, _, _, h5⟩ :=
      createVersion_autoPatch st head content cs a hl hh
    exact ⟨st', v', h1, h5, h2⟩

/-- C3 counterexample: submitting the head's own content with an explicit
version that is not strictly greater succeeds as an idempotent no-op instead
of failing with `VersionConflictError`. -/
theorem createVersion_conflict_cex_c3 :
    createVersion st0 ["A"] none "bob"
        (some { major := 1, minor := 0, patch := 0 }) = .ok (st0, v0)
    ∧ semverLt v0.versionString { major := 1, minor := 0, patch := 0 } = false :=
  ⟨rfl, rfl⟩

/-- C3 witness: a concrete request sequence keeps the history strictly
increasing, and a stale explicit version on changed content is rejected. -/
theorem createVersion_monotonic_c3_witness :
    storeMono (runRequests emptyStore
      [{ content := ["A"], changeSummary := none, authorId := "alice",
         explicitVersion := none },
       { content := ["A", "B"], changeSummary := some "add B",
         authorId := "alice", explicitVersion := none }])
    ∧ createVersion st0 ["B"] none "bob"
        (some { major := 0, minor := 9, patch := 0 }) =
      .error .versionConflict :=
  ⟨createVersion_monotonic_c3.2.1 _,
   createVersion_monotonic_c3.2.2.1 st0 v0 ["B"] none "bob"
     { major := 0, minor := 9, patch := 0 } rfl (by decide) rfl⟩

/-- The no-op branch of createVersion: a head whose hash matches the
submitted content is returned unchanged. -/
theorem createVersion_noop (st : ArtifactStore) (head : Version)
    (content : List String) (cs : Option String) (a : String)
    (ev : Option SemVer) (h1 : st.versions.getLast? = some head)
    (h2 : head.contentHash = hashContent content) :
    createVersion st content cs a ev = .ok (st, head) := by
  unfold createVersion
  rw [h1]
  show (if head.contentHash = hashContent content then _ else _) = _
  rw [if_pos h2]

/-- The head of any successfully written store carries the submitted
content's hash. -/
theorem createVersion_ok_head (st : ArtifactStore) (content : List String)
    (cs : Option String) (a : String) (ev : Option SemVer)
    (st' : ArtifactStore) (v' : Version)
    (h : createVersion st content cs a ev = .ok (st', v')) :
    st'.versions.getLast? = some v'
    ∧ v'.contentHash = hashContent content := by
  rcases createVersion_ok_rec st content cs a ev st' v' h with
    ⟨h1, h2, h3⟩ | ⟨h1, _, h3, _, _, _⟩
  · rw [h1]
    exact ⟨h2, h3⟩
  · constructor
    · show st'.versions.getLast? = some v'
      rw [h1]
      exact List.getLast?_concat _
    · exact h3

/-- C4: when the head already carries the submitted content's hash,
`createVersion` is a no-op returning the existing head; hence a second call
with identical content returns the same store and the same head as the
first. -/
theorem createVersion_idempotent_c4 :
    (∀ st head content cs a ev,
        st.versions.getLast? = some head →
        head.contentHash = hashContent content →
        createVersion st content cs a ev = .ok (st, head))
    ∧ (∀ st content cs a ev st₁ v₁ cs' a' ev',
        createVersion st content cs a ev = .ok (st₁, v₁) →
        createVersion st₁ content cs' a' ev' = .ok (st₁, v₁)) := by
  refine ⟨createVersion_noop, ?_⟩
  intro st content cs a ev st₁ v₁ cs' a' ev' h
  obtain ⟨hl, hh⟩ := createVersion_ok_head st content cs a ev st₁ v₁ h
  exact createVersion_noop st₁ v₁ content cs' a' ev' hl hh

/-- C4 witness: writing content "A" on top of `st0` (whose head already has
content "A") is a no-op returning `v0`, whatever the new summary, author or
explicit version. -/
theorem createVersion_idempotent_c4_witness :
    createVersion st0 ["A"] (some "retry") "carol" none = .ok (st0, v0) :=
  createVersion_idempotent_c4.2 emptyStore ["A"] none "alice" none st0 v0
    (some "retry") "carol" none rfl

/-- C5 (amended): `rollback` fails with `NotFoundError` when `toVersion`
does not exist; on success the returned Version is the new head, its content
equals `toVersion`'s content, and the prior history is preserved unchanged
(at most one Version is appended); a fresh head carrying a summary derived
from the reason is created whenever the current head's content differs from
`toVersion`'s. (As stated, the claim's "always creates a new head Version"
fails when rolling back to content identical to the head: see the
counterexample.) -/
theorem rollback_spec_c5 :
    (∀ st tov a reason,
        st.versions.find? (fun v => decide (v.versionString = tov)) = none →
        rollback st tov a reason = .error .notFound)
    ∧ (∀ st tov a reason tv st' v',
        storeHashed st →
        st.versions.find? (fun v => decide (v.versionString = tov)) = some tv →
        rollback st tov a reason = .ok (st', v') →
        v'.content = tv.content
        ∧ headVersion st' = some v'
        ∧ (st'.versions = st.versions ∨ st'.versions = st.versions ++ [v']))
    ∧ (∀ st tov a reason tv head,
        st.versions.find? (fun v => decide (v.versionString = tov)) = some tv →
        st.versions.getLast? = some head →
        head.contentHash ≠ hashContent tv.content →
        ∃ st' v', rollback st tov a reason = .ok (st', v')
          ∧ st'.versions = st.versions ++ [v']
          ∧ v'.content = tv.content
          ∧ v'.changeSummary = some (rollbackSummary reason)) := by
  refine ⟨?_, ?_, ?_⟩
  · intro st tov a reason hfind
    unfold rollback
    rw [hfind]
  · intro st tov a reason tv st' v' hhash hfind h
    unfold rollback at h
    rw [hfind] at h
    have hrec := createVersion_ok_rec st tv.content
      (some (rollbackSummary reason)) a none st' v' h
    have hhead := createVersion_ok_head st tv.content
      (some (rollbackSummary reason)) a none st' v' h
    rcases hrec with ⟨h1, h2, h3⟩ | ⟨h1, h2, _, _, _, _⟩
    · refine ⟨?_, hhead.1, .inl (by rw [h1])⟩
      have hv'mem : v' ∈ st.versions := List.mem_of_mem_getLast? h2
      have : hashContent v'.content = hashContent tv.content := by
        rw [← hhash v' hv'mem]
        exact h3
      exact this
    · exact ⟨h2, hhead.1, .inr h1⟩
  · intro st tov a reason tv head hfind hlast hne
    unfold rollback
    rw [hfind]
    obtain ⟨st', v', h1, h2, h3, h4, _⟩ :=
      createVersion_autoPatch st head tv.content
        (some (rollbackSummary reason)) a hlast hne
    exact ⟨st', v', h1, h2, h3, h4⟩

/-- C5 counterexample: rolling back to the version whose content the head
already has is a no-op; no new head Version is created and the returned
head's summary is not derived from the rollback reason. -/
theorem rollback_noop_cex_c5 :
    rollback st0 { major := 1, minor := 0, patch := 0 } "bob" "why" =
      .ok (st0, v0)
    ∧ st0.versions.length = 1 ∧ v0.changeSummary = none :=
  ⟨rfl, rfl, rfl⟩

/-- C5 witness (Scenario 3): rolling `st1` (head 1.0.1, content "A","B")
back to 1.0.0 appends a fresh head with content "A" and a summary derived
from the reason. -/
theorem rollback_spec_c5_witness :
    ∃ st' v',
      rollback st1 { major := 1, minor := 0, patch := 0 } "bob" "fix" =
        .ok (st', v')
      ∧ st'.versions = st1.versions ++ [v']
      ∧ v'.content = ["A"]
      ∧ v'.changeSummary = some (rollbackSummary "fix") := by
  obtain ⟨st', v', h1, h2, h3, h4⟩ :=
    rollback_spec_c5.2.2 st1 { major := 1, minor := 0, patch := 0 } "bob"
      "fix" v0 v1 rfl rfl (by decide)
  refine ⟨st', v', h1, h2, ?_, h4⟩
  rw [h3]
  rfl

/-- Rebuilding an aligned diff line from its kind and text is the
identity. -/
theorem editOf_kind_line (e : Edit) : editOf e.kind e.line = e := by
  cases e <;> rfl

/-- A list is a leading run of itself. -/
theorem startsWithLines_refl (l : List String) :
    startsWithLines l l = true := by
  induction l with
  | nil => rfl
  | cons a as ih => simp [startsWithLines, ih]

/-- Applying a run of context lines consumes a matching leading run and
reproduces it. -/
theorem applyEdits_ctx_run (lines : List String) :
    ∀ (old : List String) (es : List Edit),
      applyEdits old (lines.map Edit.ctx ++ es) =
        if startsWithLines old lines then
          (applyEdits (old.drop lines.length) es).map (fun r => lines ++ r)
        else none := by
  induction lines with
  | nil =>
    intro old es
    simp [startsWithLines]
  | cons l ls ih =>
    intro old es
    cases old with
    | nil => simp [applyEdits, startsWithLines]
    | cons o os =>
      simp only [List.map_cons, List.cons_append, applyEdits, List.append_eq]
      by_cases h : o = l
      · rw [if_pos h, ih os es]
        simp only [startsWithLines, h, decide_True, Bool.true_and]
        by_cases h2 : startsWithLines os ls
        · simp [h2, Option.map_map, Function.comp_def]
        · simp [h2]
      · rw [if_neg h]
        simp [startsWithLines, h]

/-- Applying a run of removed lines consumes a matching leading run. -/
theorem applyEdits_del_run (lines : List String) :
    ∀ (old : List String) (es : List Edit),
      applyEdits old (lines.map Edit.del ++ es) =
        if startsWithLines old lines then
          applyEdits (old.drop lines.length) es
        else none := by
  induction lines with
  | nil =>
    intro old es
    simp [startsWithLines]
  | cons l ls ih =>
    intro old es
    cases old with
    | nil => simp [applyEdits, startsWithLines]
    | cons o os =>
      simp only [List.map_cons, List.cons_append, applyEdits, List.append_eq]
      by_cases h : o = l
      · rw [if_pos h, ih os es]
        simp [startsWithLines, h]
      · rw [if_neg h]
        simp [startsWithLines, h]

/-- Applying a run of added lines inserts them before the rest of the
result. -/
theorem applyEdits_ins_run (lines : List String) :
    ∀ (old : List String) (es : List Edit),
      applyEdits old (lines.map Edit.ins ++ es) =
        (applyEdits old es).map (fun r => lines ++ r) := by
  induction lines with
  | nil =>
    intro old es
    simp
  | cons l ls ih =>
    intro old es
    simp only [List.map_cons, List.cons_append, applyEdits, List.append_eq,
      ih, Option.map_map, Function.comp_def, List.cons_append]

/-- Flattening distributes over chunk-list concatenation. -/
theorem flattenChunks_append (a b : List DiffChunk) :
    flattenChunks (a ++ b) = flattenChunks a ++ flattenChunks b := by
  simp [flattenChunks]

/-- One grouping step appends exactly the processed line to the flattened
chunk sequence. -/
theorem flattenChunks_chunkStep (st : ChunkState) (e : Edit) :
    flattenChunks (chunkStep st e).rchunks.reverse =
      flattenChunks st.rchunks.reverse ++ [e] := by
  unfold chunkStep
  cases hr : st.rchunks with
  | nil =>
    simp [flattenChunks, chunkEdits, newChunk, editOf_kind_line]
  | cons c rest =>
    by_cases hk : c.kind = e.kind
    · simp only [if_pos hk, List.reverse_cons, flattenChunks_append]
      have hc : chunkEdits
          { c with
            lines := c.lines ++ [e.line]
            oldLines := c.oldLines + (if consumesOld e.kind then 1 else 0)
            newLines := c.newLines + (if consumesNew e.kind then 1 else 0) } =
          chunkEdits c ++ [e] := by
        simp [chunkEdits, hk, editOf_kind_line]
      simp [flattenChunks, hc]
    · simp only [if_neg hk, List.reverse_cons, flattenChunks_append]
      simp [flattenChunks, chunkEdits, newChunk, editOf_kind_line]

/-- Folding the grouping step over an aligned line sequence appends it to
the flattened output. -/
theorem flattenChunks_foldl (es : List Edit) :
    ∀ st : ChunkState,
      flattenChunks (es.foldl chunkStep st).rchunks.reverse =
        flattenChunks st.rchunks.reverse ++ es := by
  induction es with
  | nil => intro st; simp
  | cons e es ih =>
    intro st
    simp only [List.foldl_cons, ih, flattenChunks_chunkStep,
      List.append_assoc, List.singleton_append]

/-- Grouping aligned diff lines into chunks loses no lines: flattening the
chunks gives back the aligned sequence. -/
theorem flattenChunks_chunksFromEdits (es : List Edit) :
    flattenChunks (chunksFromEdits es) = es := by
  unfold chunksFromEdits
  rw [flattenChunks_foldl]
  simp [flattenChunks]

/-- Applying a chunk sequence is applying its flattened aligned lines. -/
theorem applyChunks_eq_applyEdits :
    ∀ (cs : List DiffChunk) (old : List String),
      applyChunks old cs = applyEdits old (flattenChunks cs) := by
  intro cs
  induction cs with
  | nil => intro old; rfl
  | cons c cs ih =>
    intro old
    have hf : flattenChunks (c :: cs) = chunkEdits c ++ flattenChunks cs := by
      simp [flattenChunks]
    rw [hf]
    cases hk : c.kind
    case context =>
      rw [show applyChunks old (c :: cs) =
          if startsWithLines old c.lines then
            (applyChunks (old.drop c.lines.length) cs).map
              (fun r => c.lines ++ r)
          else none from by rw [applyChunks, hk]]
      rw [show chunkEdits c = c.lines.map Edit.ctx from by
        rw [chunkEdits, hk]; rfl]
      rw [applyEdits_ctx_run]
      by_cases h : startsWithLines old c.lines <;> simp [h, ih]
    case add =>
      rw [show applyChunks old (c :: cs) =
          (applyChunks old cs).map (fun r => c.lines ++ r) from by
        rw [applyChunks, hk]]
      rw [show chunkEdits c = c.lines.map Edit.ins from by
        rw [chunkEdits, hk]; rfl]
      rw [applyEdits_ins_run, ih]
    case remove =>
      rw [show applyChunks old (c :: cs) =
          if startsWithLines old c.lines then
            applyChunks (old.drop c.lines.length) cs
          else none from by rw [applyChunks, hk]]
      rw [show chunkEdits c = c.lines.map Edit.del from by
        rw [chunkEdits, hk]; rfl]
      rw [applyEdits_del_run]
      by_cases h : startsWithLines old c.lines <;> simp [h, ih]

/-- The aligned diff of two line sequences applies back to the old sequence
and reproduces the new one, for every fuel value. -/
theorem applyEdits_diffGo :
    ∀ (fuel : Nat) (A B : List String),
      applyEdits A (diffGo fuel A B) = some B := by
  intro fuel
  induction fuel with
  | zero =>
    intro A B
    rw [show diffGo 0 A B = A.map Edit.del ++ B.map Edit.ins from rfl]
    rw [applyEdits_del_run, if_pos (startsWithLines_refl A), List.drop_length]
    rw [← List.append_nil (B.map Edit.ins), applyEdits_ins_run]
    simp [applyEdits]
  | succ fuel ih =>
    intro A B
    cases A with
    | nil =>
      cases B with
      | nil => rfl
      | cons b bs =>
        rw [show diffGo (fuel + 1) [] (b :: bs) =
            .ins b :: diffGo fuel [] bs from rfl]
        simp [applyEdits, ih]
    | cons a as =>
      cases B with
      | nil =>
        rw [show diffGo (fuel + 1) (a :: as) [] =
            .del a :: diffGo fuel as [] from rfl]
        simp [applyEdits, ih]
      | cons b bs =>
        by_cases h : a = b
        · rw [show diffGo (fuel + 1) (a :: as) (b :: bs) =
              .ctx a :: diffGo fuel as bs from by
            rw [diffGo, if_pos h]]
          simp [applyEdits, ih, h]
        · by_cases h2 : lcsLen (a :: as) bs ≤ lcsLen as (b :: bs)
          · rw [show diffGo (fuel + 1) (a :: as) (b :: bs) =
                .del a :: diffGo fuel as (b :: bs) from by
              rw [diffGo, if_neg h, if_pos h2]]
            simp [applyEdits, ih]
          · rw [show diffGo (fuel + 1) (a :: as) (b :: bs) =
                .ins b :: diffGo fuel (a :: as) bs from by
              rw [diffGo, if_neg h, if_neg h2]]
            simp [applyEdits, ih]

/-- C1: the diff/apply round trip — applying all chunks of
`diffChunks A B` to the old line sequence A, in chunk order, reconstructs
exactly the new line sequence B. -/
theorem diff_roundtrip_c1 (A B : List String) :
    applyChunks A (diffChunks A B) = some B := by
  rw [diffChunks, applyChunks_eq_applyEdits, flattenChunks_chunksFromEdits]
  exact applyEdits_diffGo (A.length + B.length) A B

/-- Every sequence starts with the empty pattern. -/
theorem startsWithL_nil (s : List Char) : startsWithL s [] = true := by
  cases s <;> rfl

/-- A sequence starts with its own prefix. -/
theorem startsWithL_append_self (pat rest : List Char) :
    startsWithL (pat ++ rest) pat = true := by
  induction pat with
  | nil => exact startsWithL_nil rest
  | cons c cs ih => simp [startsWithL, ih]

/-- Characterization of the prefix check. -/
theorem startsWithL_iff (pat : List Char) :
    ∀ s, startsWithL s pat = true ↔ ∃ t, s = pat ++ t := by
  induction pat with
  | nil =>
    intro s
    simp [startsWithL]
  | cons c cs ih =>
    intro s
    cases s with
    | nil =>
      simp [startsWithL]
    | cons a as =>
      simp only [startsWithL, Bool.and_eq_true, decide_eq_true_eq, ih,
        List.cons_append, List.cons.injEq]
      constructor
      · rintro ⟨h1, t, h2⟩
        exact ⟨t, h1, h2⟩
      · rintro ⟨t, h1, h2⟩
        exact ⟨h1, t, h2⟩

/-- An occurrence inside the tail is an occurrence. -/
theorem occursIn_cons_tail {pat l : List Char} (c : Char)
    (h : occursIn pat l) : occursIn pat (c :: l) := by
  obtain ⟨a, b, hab⟩ := h
  exact ⟨c :: a, b, by rw [hab]; rfl⟩

/-- Case analysis of an occurrence at the head of a cons. -/
theorem occursIn_cons_elim {pat : List Char} {c : Char} {l : List Char}
    (h : occursIn pat (c :: l)) :
    (∃ t, c :: l = pat ++ t) ∨ occursIn pat l := by
  obtain ⟨a, b, hab⟩ := h
  cases a with
  | nil => exact .inl ⟨b, by simpa using hab⟩
  | cons a0 as =>
    simp only [List.cons_append, List.cons.injEq] at hab
    exact .inr ⟨as, b, hab.2⟩

/-- Only the empty pattern occurs in the empty sequence. -/
theorem occursIn_nil {pat : List Char} (h : occursIn pat []) : pat = [] := by
  obtain ⟨a, b, hab⟩ := h
  cases a with
  | nil =>
    cases pat with
    | nil => rfl
    | cons p ps => simp at hab
  | cons x xs => simp at hab

/-- The decidable occurrence check is sound in the negative. -/
theorem not_occursIn_of_containsSub_eq_false {pat : List Char} :
    ∀ l, containsSub pat l = false → ¬ occursIn pat l := by
  intro l
  induction l with
  | nil =>
    intro h hocc
    rw [occursIn_nil hocc] at h
    simp [containsSub, startsWithL] at h
  | cons c s ih =>
    intro h hocc
    rw [show containsSub pat (c :: s) =
        (startsWithL (c :: s) pat || containsSub pat s) from rfl] at h
    rcases Bool.or_eq_false_iff.mp h with ⟨h1, h2⟩
    rcases occursIn_cons_elim hocc with ⟨t, ht⟩ | htail
    · rw [(startsWithL_iff pat (c :: s)).mpr ⟨t, ht⟩] at h1
      exact absurd h1 (by simp)
    · exact ih h2 htail

/-- A `---` occurrence cannot start inside a dash-free block. -/
theorem occursIn_dashes_right {a b : List Char} (ha : '-' ∉ a)
    (h : occursIn (str "---") (a ++ b)) : occursIn (str "---") b := by
  induction a with
  | nil => simpa using h
  | cons c as ih =>
    rw [List.cons_append] at h
    rcases occursIn_cons_elim h with ⟨t, ht⟩ | htail
    · rw [show str "---" = ['-', '-', '-'] from rfl] at ht
      simp only [List.cons_append, List.cons.injEq] at ht
      exact absurd (ht.1 ▸ List.mem_cons_self c as) ha
    · exact ih (fun hm => ha (List.mem_cons_of_mem c hm)) htail

/-- A `---` occurrence cannot straddle a newline: it lies in the block
before it or in the newline-led remainder. -/
theorem occursIn_dashes_split {f r : List Char}
    (h : occursIn (str "---") (f ++ '\n' :: r)) :
    occursIn (str "---") f ∨ occursIn (str "---") ('\n' :: r) := by
  induction f with
  | nil => exact .inr (by simpa using h)
  | cons c f' ih =>
    rw [List.cons_append] at h
    rcases occursIn_cons_elim h with ⟨t, ht⟩ | htail
    · rw [show str "---" = ['-', '-', '-'] from rfl] at ht
      cases f' with
      | nil => simp at ht
      | cons d1 f2 =>
        cases f2 with
        | nil => simp at ht
        | cons d2 f3 =>
          simp only [List.cons_append, List.cons.injEq, List.nil_append] at ht
          refine .inl ⟨[], f3, ?_⟩
          rw [show str "---" = ['-', '-', '-'] from rfl]
          simp [ht.1, ht.2.1, ht.2.2.1]
    · rcases ih htail with hl | hr
      · exact .inl (occursIn_cons_tail c hl)
      · exact .inr hr

/-- No `---` occurrence starts at a newline. -/
theorem occursIn_dashes_newline {r : List Char}
    (h : occursIn (str "---") ('\n' :: r)) : occursIn (str "---") r := by
  rcases occursIn_cons_elim h with ⟨t, ht⟩ | htail
  · rw [show str "---" = ['-', '-', '-'] from rfl] at ht
    simp at ht
  · exact htail

/-- `findSub` at a position whose window matches. -/
theorem findSub_of_startsWith {pat s : List Char}
    (h : startsWithL s pat = true) : findSub pat s = some 0 := by
  cases s with
  | nil =>
    rw [show findSub pat [] =
        if startsWithL [] pat then some 0 else none from rfl, if_pos h]
  | cons c s' =>
    rw [show findSub pat (c :: s') =
        if startsWithL (c :: s') pat then some 0
        else (findSub pat s').map (fun n => n + 1) from rfl, if_pos h]

/-- `findSub` steps over a position whose window does not match. -/
theorem findSub_cons_neg {pat : List Char} {c : Char} {s : List Char}
    (h : startsWithL (c :: s) pat = false) :
    findSub pat (c :: s) = (findSub pat s).map (fun n => n + 1) := by
  rw [show findSub pat (c :: s) =
      if startsWithL (c :: s) pat then some 0
      else (findSub pat s).map (fun n => n + 1) from rfl,
    if_neg (by simp [h])]

/-- Scanning a block that ends in a newline and is free of `---` for the
pattern `---` finds the occurrence placed right after the block. -/
theorem findSub_dashes_after (x : List Char) :
    ∀ (hne : x ≠ []) (hlast : x.getLast? = some '\n')
      (hocc : ¬ occursIn (str "---") x) (rest : List Char),
      findSub (str "---") (x ++ (str "---" ++ rest)) = some x.length := by
  induction x with
  | nil => intro hne; exact absurd rfl hne
  | cons c x' ih =>
    intro hne hlast hocc rest
    cases hx' : x' with
    | nil =>
      subst hx'
      have hc : c = '\n' := by simpa using hlast
      subst hc
      rw [show ('\n' :: ([] : List Char)) ++ (str "---" ++ rest) =
          '\n' :: (str "---" ++ rest) from rfl]
      rw [findSub_cons_neg (by rfl)]
      rw [findSub_of_startsWith (startsWithL_append_self _ _)]
      rfl
    | cons d x2 =>
      rw [← hx']
      have hx'ne : x' ≠ [] := by rw [hx']; exact List.cons_ne_nil d x2
      have hsw : startsWithL ((c :: x') ++ (str "---" ++ rest))
          (str "---") = false := by
        by_contra hcon
        have htrue : startsWithL ((c :: x') ++ (str "---" ++ rest))
            (str "---") = true := by
          revert hcon
          cases startsWithL ((c :: x') ++ (str "---" ++ rest)) (str "---") <;>
            simp
        obtain ⟨t, ht⟩ := (startsWithL_iff _ _).mp htrue
        rw [show str "---" = ['-', '-', '-'] from rfl] at ht
        rw [hx'] at ht
        cases hx2 : x2 with
        | nil =>
          rw [hx2] at ht
          have hd : d = '\n' := by
            rw [hx', hx2] at hlast
            simpa using hlast
          rw [hd] at ht
          simp at ht
        | cons d2 x3 =>
          rw [hx2] at ht
          simp only [List.cons_append, List.cons.injEq] at ht
          refine hocc ⟨[], x3, ?_⟩
          rw [show str "---" = ['-', '-', '-'] from rfl, hx', hx2]
          simp [ht.1, ht.2.1, ht.2.2.1]
      rw [List.cons_append,
        findSub_cons_neg (by rw [← List.cons_append]; exact hsw)]
      rw [ih hx'ne ?hlast2 ?hocc2 rest]
      · simp
      case hlast2 =>
        rw [hx'] at hlast ⊢
        simpa using hlast
      case hocc2 =>
        intro hx'occ
        exact hocc (occursIn_cons_tail c hx'occ)

/-- Splitting never yields an empty list of segments. -/
theorem splitOnCharL_ne_nil (sep : Char) (l : List Char) :
    splitOnCharL sep l ≠ [] := by
  cases l with
  | nil => exact List.cons_ne_nil [] []
  | cons c rest =>
    rw [show splitOnCharL sep (c :: rest) =
        match splitOnCharL sep rest with
        | [] => [[]]
        | r :: rs => if c = sep then [] :: r :: rs else (c :: r) :: rs
      from rfl]
    cases hs : splitOnCharL sep rest with
    | nil => simp
    | cons r rs => by_cases h : c = sep <;> simp [h]

/-- A separator at the head starts a fresh empty segment. -/
theorem splitOnCharL_sep_cons (sep : Char) (l : List Char) :
    splitOnCharL sep (sep :: l) = [] :: splitOnCharL sep l := by
  rw [show splitOnCharL sep (sep :: l) =
      match splitOnCharL sep l with
      | [] => [[]]
      | r :: rs => if sep = sep then [] :: r :: rs else (sep :: r) :: rs
    from rfl]
  cases hs : splitOnCharL sep l with
  | nil => exact absurd hs (splitOnCharL_ne_nil sep l)
  | cons r rs => simp

/-- A separator-free block followed by a separator is the first segment. -/
theorem splitOnCharL_block (sep : Char) :
    ∀ (x y : List Char), sep ∉ x →
      splitOnCharL sep (x ++ sep :: y) = x :: splitOnCharL sep y := by
  intro x
  induction x with
  | nil =>
    intro y _
    rw [List.nil_append, splitOnCharL_sep_cons]
  | cons c xs ih =>
    intro y hmem
    have hc : c ≠ sep := fun hcc => hmem (hcc ▸ List.mem_cons_self c xs)
    rw [List.cons_append]
    rw [show splitOnCharL sep (c :: (xs ++ sep :: y)) =
        match splitOnCharL sep (xs ++ sep :: y) with
        | [] => [[]]
        | r :: rs => if c = sep then [] :: r :: rs else (c :: r) :: rs
      from rfl]
    rw [ih y (fun hm => hmem (List.mem_cons_of_mem c hm))]
    simp [hc]

/-- A separator-free sequence is a single segment. -/
theorem splitOnCharL_no_sep (sep : Char) :
    ∀ (l : List Char), sep ∉ l → splitOnCharL sep l = [l] := by
  intro l
  induction l with
  | nil => intro _; rfl
  | cons c xs ih =>
    intro hmem
    have hc : c ≠ sep := fun hcc => hmem (hcc ▸ List.mem_cons_self c xs)
    rw [show splitOnCharL sep (c :: xs) =
        match splitOnCharL sep xs with
        | [] => [[]]
        | r :: rs => if c = sep then [] :: r :: rs else (c :: r) :: rs
      from rfl]
    rw [ih (fun hm => hmem (List.mem_cons_of_mem c hm))]
    simp [hc]

/-- Joining a two-or-more segment list starts with the first segment and a
separator. -/
theorem joinSep_cons_cons (sep : Char) (a b : List Char)
    (rs : List (List Char)) :
    joinSep sep (a :: b :: rs) = a ++ sep :: joinSep sep (b :: rs) := by
  simp [joinSep, List.intercalate]

/-- Joining undoes splitting. -/
theorem joinSep_splitOnCharL (sep : Char) :
    ∀ l : List Char, joinSep sep (splitOnCharL sep l) = l := by
  intro l
  induction l with
  | nil => rfl
  | cons c xs ih =>
    rw [show splitOnCharL sep (c :: xs) =
        match splitOnCharL sep xs with
        | [] => [[]]
        | r :: rs => if c = sep then [] :: r :: rs else (c :: r) :: rs
      from rfl]
    cases hs : splitOnCharL sep xs with
    | nil => exact absurd hs (splitOnCharL_ne_nil sep xs)
    | cons r rs =>
      rw [hs] at ih
      by_cases h : c = sep
      · subst h
        simp only [if_true, eq_self_iff_true, joinSep_cons_cons,
          List.nil_append, ih]
      · have hj : joinSep sep ((c :: r) :: rs) =
            c :: joinSep sep (r :: rs) := by
          cases rs with
          | nil => simp [joinSep, List.intercalate]
          | cons r2 rs2 =>
            rw [joinSep_cons_cons, joinSep_cons_cons, List.cons_append]
        simp only [if_neg h, hj, ih]

/-- dropWhile is the identity on a sequence whose head is not accepted. -/
theorem dropWhile_eq_self_of_head (l : List Char)
    (h : l.head?.all (fun c => !wsB c) = true) :
    l.dropWhile wsB = l := by
  cases l with
  | nil => rfl
  | cons c cs =>
    simp only [List.head?_cons, Option.all_some, Bool.not_eq_true'] at h
    simp [List.dropWhile_cons, h]

/-- Trimming is the identity on a sequence with no leading or trailing
whitespace. -/
theorem trimL_of_noEdgeWS (l : List Char) (h : noEdgeWS l) : trimL l = l := by
  obtain ⟨h1, h2⟩ := h
  unfold trimL
  rw [dropWhile_eq_self_of_head l h1]
  rw [dropWhile_eq_self_of_head l.reverse (by rw [List.head?_reverse]; exact h2)]
  exact List.reverse_reverse l

/-- Trimming strips one leading space from an otherwise trim-stable
sequence. -/
theorem trimL_space_cons (l : List Char) (h : noEdgeWS l) :
    trimL (' ' :: l) = l := by
  obtain ⟨h1, h2⟩ := h
  unfold trimL
  rw [show (' ' :: l).dropWhile wsB = l.dropWhile wsB from by
    simp [List.dropWhile_cons, wsB]]
  rw [dropWhile_eq_self_of_head l h1]
  rw [dropWhile_eq_self_of_head l.reverse (by rw [List.head?_reverse]; exact h2)]
  exact List.reverse_reverse l

/-- Trimming strips two leading newlines from an otherwise trim-stable
sequence. -/
theorem trimL_newline2 (l : List Char) (h : noEdgeWS l) :
    trimL ('\n' :: '\n' :: l) = l := by
  obtain ⟨h1, h2⟩ := h
  unfold trimL
  rw [show ('\n' :: '\n' :: l).dropWhile wsB = l.dropWhile wsB from by
    simp [List.dropWhile_cons, wsB]]
  rw [dropWhile_eq_self_of_head l h1]
  rw [dropWhile_eq_self_of_head l.reverse (by rw [List.head?_reverse]; exact h2)]
  exact List.reverse_reverse l

/-- Processing a well-formed `key: value` frontmatter line recovers the
value and dispatches on the key. -/
theorem applyMetaLine_keyed (m : PromptMetadata) (key f : List Char)
    (hk : ':' ∉ key) (hkey : key ≠ []) (htrim : trimL key = key)
    (hf : noEdgeWS f) :
    applyMetaLine m (key ++ ':' :: ' ' :: f) =
      (if key = str "hermes_id" ∨ key = str "id" then { m with id := some f }
       else if key = str "name" then { m with name := some f }
       else if key = str "slug" then { m with slug := some f }
       else if key = str "type" then { m with type := some f }
       else if key = str "version" then { m with version := some f }
       else m) := by
  unfold applyMetaLine
  rw [show key ++ ':' :: ' ' :: f = key ++ ':' :: (' ' :: f) from rfl]
  rw [splitOnCharL_block ':' key (' ' :: f) hk]
  show (if key ≠ [] ∧ splitOnCharL ':' (' ' :: f) ≠ [] then _ else m) = _
  rw [if_pos ⟨hkey, splitOnCharL_ne_nil ':' (' ' :: f)⟩]
  rw [joinSep_splitOnCharL ':' (' ' :: f), trimL_space_cons f hf, htrim]

/-- The frontmatter body ends with a newline. -/
theorem headerMid_getLast (p : PromptFile) :
    (headerMid p).getLast? = some '\n' := by
  rw [← List.head?_reverse]
  unfold headerMid
  simp [List.reverse_append, List.head?_append]

/-- The frontmatter body of clean fields contains no `---`. -/
theorem headerMid_not_occursIn (p : PromptFile)
    (hid : cleanField p.id) (hname : cleanField p.name)
    (hslug : cleanField p.slug) (hver : cleanField p.version)
    (hty : cleanField p.type) :
    ¬ occursIn (str "---") (headerMid p) := by
  intro h0
  unfold headerMid at h0
  have h1 := occursIn_dashes_right (by decide) (occursIn_dashes_newline h0)
  rcases occursIn_dashes_split h1 with hf | h2
  · exact not_occursIn_of_containsSub_eq_false p.id hid.2.1 hf
  have h3 := occursIn_dashes_right (by decide) (occursIn_dashes_newline h2)
  rcases occursIn_dashes_split h3 with hf | h4
  · exact not_occursIn_of_containsSub_eq_false p.name hname.2.1 hf
  have h5 := occursIn_dashes_right (by decide) (occursIn_dashes_newline h4)
  rcases occursIn_dashes_split h5 with hf | h6
  · exact not_occursIn_of_containsSub_eq_false p.slug hslug.2.1 hf
  have h7 := occursIn_dashes_right (by decide) (occursIn_dashes_newline h6)
  rcases occursIn_dashes_split h7 with hf | h8
  · exact not_occursIn_of_containsSub_eq_false p.version hver.2.1 hf
  have h9 := occursIn_dashes_right (by decide) (occursIn_dashes_newline h8)
  rcases occursIn_dashes_split h9 with hf | h10
  · exact not_occursIn_of_containsSub_eq_false p.type hty.2.1 hf
  have h11 := occursIn_dashes_newline h10
  have := occursIn_nil h11
  simp [str] at this

/-- The formatted prompt file, decomposed around its frontmatter
markers. -/
theorem formatPromptFile_eq (p : PromptFile) :
    formatPromptFile p =
      str "---" ++
        (headerMid p ++ (str "---" ++ ('\n' :: '\n' :: p.content))) := by
  unfold formatPromptFile headerMid
  simp [List.intercalate, List.append_assoc]

/-- C9 (amended): the frontmatter round trip. For fields with no newline, no
embedded `---`, and no leading/trailing whitespace, parsing a formatted
prompt file recovers all five metadata fields, and for trim-stable content
the content is recovered as well. (The trimming and frontmatter scanning in
the parser make the unrestricted claim false: see the counterexample.) -/
theorem parse_format_roundtrip_c9 (p : PromptFile)
    (hid : cleanField p.id) (hname : cleanField p.name)
    (hslug : cleanField p.slug) (hver : cleanField p.version)
    (hty : cleanField p.type) (hc : noEdgeWS p.content)
    (hcs : startsWithL p.content (str "---") = false) :
    parsePromptMetadata (formatPromptFile p) =
      { id := some p.id, name := some p.name, slug := some p.slug,
        type := some p.type, version := some p.version }
    ∧ extractPromptContent (formatPromptFile p) = p.content := by
  have hfe := formatPromptFile_eq p
  have hml : ¬ occursIn (str "---") (headerMid p) :=
    headerMid_not_occursIn p hid hname hslug hver hty
  have hne : headerMid p ≠ [] := by
    unfold headerMid
    exact List.cons_ne_nil _ _
  have hfind : findSub (str "---")
      (headerMid p ++ (str "---" ++ ('\n' :: '\n' :: p.content))) =
      some (headerMid p).length :=
    findSub_dashes_after (headerMid p) hne (headerMid_getLast p) hml _
  have hsw : startsWithL (formatPromptFile p) (str "---") = true := by
    rw [hfe]
    exact startsWithL_append_self _ _
  have hidx : indexOfFrom (formatPromptFile p) (str "---") 3 =
      some ((headerMid p).length + 3) := by
    unfold indexOfFrom
    rw [hfe]
    rw [show (3 : Nat) = (str "---").length from rfl, List.drop_left]
    rw [hfind]
    rfl
  have hslice : sliceL (formatPromptFile p) 3 ((headerMid p).length + 3) =
      headerMid p := by
    unfold sliceL
    rw [hfe]
    rw [show (headerMid p).length + 3 =
        (str "---").length + (headerMid p).length from by
      rw [show (str "---").length = 3 from rfl]
      omega]
    rw [List.take_append]
    rw [List.take_left]
    rw [show (3 : Nat) = (str "---").length from rfl]
    exact List.drop_left _ _
  have hnl : ∀ lit fld : List Char, '\n' ∉ lit → '\n' ∉ fld →
      '\n' ∉ lit ++ fld :=
    fun lit fld h1 h2 hm => (List.mem_append.mp hm).elim h1 h2
  have hsplit : splitOnCharL '\n' (headerMid p) =
      [[], str "hermes_id: " ++ p.id, str "name: " ++ p.name,
       str "slug: " ++ p.slug, str "version: " ++ p.version,
       str "type: " ++ p.type, []] := by
    rw [show headerMid p =
        '\n' :: ((str "hermes_id: " ++ p.id) ++
          '\n' :: ((str "name: " ++ p.name) ++
            '\n' :: ((str "slug: " ++ p.slug) ++
              '\n' :: ((str "version: " ++ p.version) ++
                '\n' :: ((str "type: " ++ p.type) ++ ['\n']))))) from by
      unfold headerMid
      simp [List.append_assoc]]
    rw [splitOnCharL_sep_cons]
    rw [splitOnCharL_block '\n' _ _ (hnl _ _ (by decide) hid.1)]
    rw [splitOnCharL_block '\n' _ _ (hnl _ _ (by decide) hname.1)]
    rw [splitOnCharL_block '\n' _ _ (hnl _ _ (by decide) hslug.1)]
    rw [splitOnCharL_block '\n' _ _ (hnl _ _ (by decide) hver.1)]
    rw [splitOnCharL_block '\n' _ _ (hnl _ _ (by decide) hty.1)]
    rfl
  have e1 : str "hermes_id: " ++ p.id =
      str "hermes_id" ++ ':' :: ' ' :: p.id := by
    rw [show str "hermes_id: " = str "hermes_id" ++ [':', ' '] from by decide,
      List.append_assoc]
    rfl
  have e2 : str "name: " ++ p.name = str "name" ++ ':' :: ' ' :: p.name := by
    rw [show str "name: " = str "name" ++ [':', ' '] from by decide,
      List.append_assoc]
    rfl
  have e3 : str "slug: " ++ p.slug = str "slug" ++ ':' :: ' ' :: p.slug := by
    rw [show str "slug: " = str "slug" ++ [':', ' '] from by decide,
      List.append_assoc]
    rfl
  have e4 : str "version: " ++ p.version =
      str "version" ++ ':' :: ' ' :: p.version := by
    rw [show str "version: " = str "version" ++ [':', ' '] from by decide,
      List.append_assoc]
    rfl
  have e5 : str "type: " ++ p.type = str "type" ++ ':' :: ' ' :: p.type := by
    rw [show str "type: " = str "type" ++ [':', ' '] from by decide,
      List.append_assoc]
    rfl
  constructor
  · unfold parsePromptMetadata
    rw [hsw, if_pos rfl, hidx]
    show (splitOnCharL '\n'
        (sliceL (formatPromptFile p) 3 ((headerMid p).length + 3))).foldl
        applyMetaLine {} = _
    rw [hslice, hsplit]
    simp only [List.foldl_cons, List.foldl_nil]
    rw [show applyMetaLine ({} : PromptMetadata) [] = {} from rfl]
    rw [e1, applyMetaLine_keyed {} (str "hermes_id") p.id (by decide)
      (by decide) (by decide) hid.2.2]
    rw [if_pos (Or.inl rfl)]
    rw [e2, applyMetaLine_keyed _ (str "name") p.name (by decide)
      (by decide) (by decide) hname.2.2]
    rw [if_neg (by decide), if_pos rfl]
    rw [e3, applyMetaLine_keyed _ (str "slug") p.slug (by decide)
      (by decide) (by decide) hslug.2.2]
    rw [if_neg (by decide), if_neg (by decide), if_pos rfl]
    rw [e4, applyMetaLine_keyed _ (str "version") p.version (by decide)
      (by decide) (by decide) hver.2.2]
    rw [if_neg (by decide), if_neg (by decide), if_neg (by decide),
      if_neg (by decide), if_pos rfl]
    rw [e5, applyMetaLine_keyed _ (str "type") p.type (by decide)
      (by decide) (by decide) hty.2.2]
    rw [if_neg (by decide), if_neg (by decide), if_neg (by decide),
      if_pos rfl]
    rfl
  · unfold extractPromptContent
    rw [hsw, if_pos rfl, hidx]
    show trimL ((formatPromptFile p).drop ((headerMid p).length + 3 + 3)) =
      p.content
    rw [hfe]
    rw [show (headerMid p).length + 3 + 3 =
        (str "---").length + ((headerMid p).length + (str "---").length)
      from by
        rw [show (str "---").length = 3 from rfl]
        omega]
    rw [List.drop_append, List.drop_append]
    rw [show ((str "---" ++ ('\n' :: '\n' :: p.content)).drop
        (str "---").length) = '\n' :: '\n' :: p.content from
      List.drop_left _ _]
    exact trimL_newline2 p.content hc

/-- C9 counterexample: a name with a trailing space is not recovered — the
parser trims the value, so the unrestricted round-trip claim fails. -/
theorem parse_format_cex_c9 :
    (parsePromptMetadata (formatPromptFile pCex)).name = some (str "x")
    ∧ pCex.name = str "x "
    ∧ str "x" ≠ str "x " := by
  refine ⟨by decide, rfl, by decide⟩

/-- C9 witness: a prompt with clean fields round-trips through the file
format — all five metadata fields and the content are recovered. -/
theorem parse_format_roundtrip_c9_witness :
    parsePromptMetadata (formatPromptFile pWit) =
      { id := some (str "p1"), name := some (str "My Prompt"),
        slug := some (str "my-prompt"), type := some (str "system"),
        version := some (str "1.0.0") }
    ∧ extractPromptContent (formatPromptFile pWit) = str "Hello world" :=
  parse_format_roundtrip_c9 pWit (by decide) (by decide) (by decide)
    (by decide) (by decide) (by decide) (by decide)
